import Mathlib

set_option autoImplicit false

namespace MiniGitModel

/-! Shallow embedding of the Mini-Git tool (`mini-git/minigit.py`): a
content-addressable object store, a staging index, refs and commit history.
File contents and paths are byte strings, modelled as lists of characters.
The repository's on-disk state (`.minigit` directory) is modelled by the
`Repo` structure; each CLI operation is a pure state transformer.  The SHA-1
digest is an explicit function parameter `H`; theorems that need the shape of
real digests (40 lowercase hex characters) or their collision freedom take
those facts as hypotheses, mirroring the design's stated assumption that the
digest is deterministic, fixed-width and collision resistant. -/

/-- Byte strings of the modelled program, represented as lists of characters. -/
abbrev Str := List Char

/-- Conversion of a Lean string literal into the model representation. -/
def str (s : String) : Str := s.data

/-- NUL separator byte used between the object kind and its payload. -/
def nulc : Char := Char.ofNat 0

/-- Newline character. -/
def nlc : Char := Char.ofNat 10

/-- Tab character, used in tree entries. -/
def tabc : Char := Char.ofNat 9

/-- Whitespace test covering the ASCII characters Python's `str.strip` removes. -/
def isWs (c : Char) : Bool :=
  c.toNat = 32 || c.toNat = 10 || c.toNat = 9 || c.toNat = 13 || c.toNat = 11 || c.toNat = 12

/-- Lowercase hexadecimal digit test (the alphabet of `sha1().hexdigest()`). -/
def isHexCh (c : Char) : Bool :=
  (48 ≤ c.toNat && c.toNat ≤ 57) || (97 ≤ c.toNat && c.toNat ≤ 102)

/-- Strip leading and trailing whitespace, as Python's `str.strip()`. -/
def trim (s : Str) : Str := ((s.dropWhile isWs).reverse.dropWhile isWs).reverse

/-- Split a stored object file at its first NUL byte into kind and payload;
`none` models the `ValueError` crash of `bytes.index` when no NUL is present
(the StoreCorruption condition of the spec). -/
def splitAtNul : Str → Option (Str × Str)
  | [] => none
  | c :: rest =>
    if c = nulc then some ([], rest)
    else
      match splitAtNul rest with
      | some (k, d) => some (c :: k, d)
      | none => none

/-- Split at newline characters, as Python's `str.split` with separator
newline: splitting the empty string yields one empty field. -/
def splitNL : Str → List Str
  | [] => [[]]
  | c :: rest =>
    if c = nlc then [] :: splitNL rest
    else
      match splitNL rest with
      | s :: ss => (c :: s) :: ss
      | [] => [[c]]

/-- Join with newline characters, as Python's `"\n".join`. -/
def joinNL : List Str → Str
  | [] => []
  | [l] => l
  | l :: ls => l ++ nlc :: joinNL ls

/-- Strict lexicographic comparison of byte strings by code point, matching
Python's string ordering. -/
def lexLt : Str → Str → Bool
  | [], [] => false
  | [], _ :: _ => true
  | _ :: _, [] => false
  | a :: as, b :: bs =>
    if a.toNat < b.toNat then true
    else if b.toNat < a.toNat then false
    else lexLt as bs

/-- Key order used to sort index entries (Python sorts `(path, sha)` tuples;
paths are unique dictionary keys, so the path decides). -/
def pairLe (a b : Str × Str) : Prop := lexLt a.1 b.1 = true ∨ a.1 = b.1

instance pairLeDecidable : DecidableRel pairLe := fun a b =>
  inferInstanceAs (Decidable (_ ∨ _))

/-- Association-list lookup: value of the first entry with the given key.
Models a filesystem lookup of the file named by the key. -/
def lookupKey {α : Type} : List (Str × α) → Str → Option α
  | [], _ => none
  | (k, v) :: es, key => if k = key then some v else lookupKey es key

/-- Association-list update: overwrite the entry with the given key, or append
a new one.  Models writing the file named by the key. -/
def setKey {α : Type} : List (Str × α) → Str → α → List (Str × α)
  | [], k, v => [(k, v)]
  | (k', v') :: es, k, v =>
    if k' = k then (k, v) :: es else (k', v') :: setKey es k v

/-- Position of the first entry with the given key. -/
def posOf {α : Type} : List (Str × α) → Str → Option Nat
  | [], _ => none
  | (k, _) :: es, key =>
    if k = key then some 0 else (posOf es key).map (· + 1)

/-- Decimal rendering of a natural number, as Python's `str(timestamp)`. -/
def natToStr (n : Nat) : Str := Nat.toDigits 10 n

/-- Sort index entries in path order before serializing a tree, as
`sorted(index.items())`. -/
def sortIndex (idx : List (Str × Str)) : List (Str × Str) :=
  List.insertionSort pairLe idx

/-- Entries of the working tree: a regular file with its contents, or a
directory (which `add` refuses to stage). -/
inductive FsEntry : Type where
  | file : Str → FsEntry
  | dir : FsEntry
deriving DecidableEq

/-- Working tree: mapping from path to filesystem entry. -/
abbrev WorkTree := List (Str × FsEntry)

/-- Persistent repository state under `.minigit`.  `objects` maps the full
hex id to the stored file bytes `kind ++ NUL ++ payload` (the two-level
`objects/<2-hex>/<rest>` sharding is a bijective renaming of the id and is
collapsed here).  `head` and `masterRef` are the contents of `HEAD` and
`refs/heads/master` (`none` when the file is absent; `master` is the only
ref any reachable state ever creates).  `index` is the mapping the JSON
index file serializes losslessly. -/
structure Repo : Type where
  initialized : Bool
  objects : List (Str × Str)
  head : Option Str
  masterRef : Option Str
  index : List (Str × Str)
deriving DecidableEq

/-- State with no repository present. -/
def emptyRepo : Repo :=
  { initialized := false, objects := [], head := none, masterRef := none, index := [] }

/-- Content of `HEAD` written by `init`. -/
def headStd : Str := str "ref: refs/heads/master" ++ [nlc]

/-- Full stored bytes of an object: `_hash_object` writes `kind\0content`. -/
def fullContent (kind content : Str) : Str := kind ++ nulc :: content

/-- `MiniGit._hash_object`: hash the type-tagged content and store the bytes
at the path derived from the digest, returning the digest. -/
def hashObject (H : Str → Str) (r : Repo) (kind content : Str) : Str × Repo :=
  let full := fullContent kind content
  let sha := H full
  (sha, { r with objects := setKey r.objects sha full })

/-- Result of `MiniGit._read_object`: `notFound` models the `None` returns
(id shorter than 3 characters, or no object file); `corrupt` models the
crash on a stored file with no NUL separator. -/
inductive ObjResult : Type where
  | notFound : ObjResult
  | corrupt : ObjResult
  | found : Str → Str → ObjResult
deriving DecidableEq

/-- `MiniGit._read_object`. -/
def readObject (r : Repo) (sha : Str) : ObjResult :=
  if sha.length < 3 then .notFound
  else
    match lookupKey r.objects sha with
    | none => .notFound
    | some content =>
      match splitAtNul content with
      | none => .corrupt
      | some (k, d) => .found k d

/-- `MiniGit._get_current_commit`: resolve `HEAD`.  A symbolic reference to a
ref other than `refs/heads/master` resolves to an absent file in any state
this model covers, hence `none`. -/
def getCurrentCommit (r : Repo) : Option Str :=
  match r.head with
  | none => none
  | some h =>
    let hc := trim h
    if (str "ref: ").isPrefixOf hc then
      if hc.drop 5 = str "refs/heads/master" then
        match r.masterRef with
        | some c => some (trim c)
        | none => none
      else none
    else some hc

/-- `MiniGit._set_current_commit`: write the resolved ref file.  A missing
`HEAD` would be an `IOFailure` crash; `HEAD` always exists once the
repository is initialized, and every caller checks initialization first. -/
def setCurrentCommit (r : Repo) (sha : Str) : Repo :=
  match r.head with
  | none => r
  | some h =>
    let hc := trim h
    if (str "ref: ").isPrefixOf hc then
      if hc.drop 5 = str "refs/heads/master" then
        { r with masterRef := some (sha ++ [nlc]) }
      else r
    else r

/-- Result of `MiniGit.init`. -/
inductive InitResult : Type where
  | created : InitResult
  | reinitialized : InitResult
deriving DecidableEq

/-- `MiniGit.init`: a no-op on an existing repository; otherwise create the
directories, the symbolic `HEAD` and the empty index.  No ref file is
created. -/
def initOp (r : Repo) : InitResult × Repo :=
  if r.initialized then (.reinitialized, r)
  else
    (.created,
      { initialized := true, objects := [], head := some headStd,
        masterRef := none, index := [] })

/-- Result of `MiniGit.add`; the error constructors name the diagnostics the
method prints before returning without staging anything. -/
inductive AddResult : Type where
  | uninit : AddResult
  | pathNotFound : AddResult
  | isDirectory : AddResult
  | ok : Str → AddResult
deriving DecidableEq

/-- `MiniGit.add`: stage one file, storing its contents as a blob and
recording the blob id in the index under the given path. -/
def add (H : Str → Str) (wt : WorkTree) (r : Repo) (fp : Str) : AddResult × Repo :=
  if r.initialized = false then (.uninit, r)
  else
    match lookupKey wt fp with
    | none => (.pathNotFound, r)
    | some .dir => (.isDirectory, r)
    | some (.file content) =>
      let (sha, r1) := hashObject H r (str "blob") content
      (.ok sha, { r1 with index := setKey r1.index fp sha })

/-- Serialized tree entry for one staged file: `100644 blob <sha>\t<path>`. -/
def treeLine (e : Str × Str) : Str :=
  str "100644 blob " ++ e.2 ++ tabc :: e.1

/-- Tree payload built by `commit`: path-sorted entries joined by newlines. -/
def treeContentOf (idx : List (Str × Str)) : Str :=
  joinNL ((sortIndex idx).map treeLine)

/-- Stored bytes of the tree object `commit` creates. -/
def treeFullOf (idx : List (Str × Str)) : Str :=
  fullContent (str "tree") (treeContentOf idx)

/-- Id of the tree object `commit` creates. -/
def treeShaOf (H : Str → Str) (idx : List (Str × Str)) : Str := H (treeFullOf idx)

/-- Fixed author identity used by `commit`. -/
def authorStr : Str := str "User <user@example.com>"

/-- Author header line of a commit payload. -/
def authorLine (ts : Nat) : Str := str "author " ++ authorStr ++ ' ' :: natToStr ts

/-- Committer header line of a commit payload. -/
def committerLine (ts : Nat) : Str := str "committer " ++ authorStr ++ ' ' :: natToStr ts

/-- Lines of a commit payload: `tree`, optional `parent` (only when the
current commit id is present and nonempty, Python truthiness), `author` and
`committer` stamped with the timestamp, a blank separator, the message. -/
def commitLinesOf (tSha : Str) (par : Option Str) (ts : Nat) (msg : Str) : List Str :=
  [str "tree " ++ tSha]
    ++ (match par with
        | some p => if p = [] then [] else [str "parent " ++ p]
        | none => [])
    ++ [authorLine ts, committerLine ts, [], msg]

/-- Commit payload assembled by `commit` in state `r`. -/
def commitPayloadOf (H : Str → Str) (r : Repo) (msg : Str) (ts : Nat) : Str :=
  joinNL (commitLinesOf (treeShaOf H r.index) (getCurrentCommit r) ts msg)

/-- Stored bytes of the commit object `commit` creates in state `r`. -/
def commitFullOf (H : Str → Str) (r : Repo) (msg : Str) (ts : Nat) : Str :=
  fullContent (str "commit") (commitPayloadOf H r msg ts)

/-- Id of the commit object `commit` creates in state `r`. -/
def commitShaOf (H : Str → Str) (r : Repo) (msg : Str) (ts : Nat) : Str :=
  H (commitFullOf H r msg ts)

/-- Result of `MiniGit.commit`; the error constructors name the printed
diagnostics. -/
inductive CommitResult : Type where
  | uninit : CommitResult
  | empty : CommitResult
  | ok : Str → CommitResult
deriving DecidableEq

/-- `MiniGit.commit`: refuse on an empty index, otherwise store the tree,
assemble and store the commit object, advance the ref `HEAD` names, and
clear the index.  `ts` is the wall-clock timestamp `int(time.time())`. -/
def commit (H : Str → Str) (r : Repo) (msg : Str) (ts : Nat) : CommitResult × Repo :=
  if r.initialized = false then (.uninit, r)
  else if r.index = [] then (.empty, r)
  else
    let tSha := treeShaOf H r.index
    let r1 := { r with objects := setKey r.objects tSha (treeFullOf r.index) }
    let cSha := commitShaOf H r msg ts
    let r2 := { r1 with objects := setKey r1.objects cSha (commitFullOf H r msg ts) }
    let r3 := setCurrentCommit r2 cSha
    (.ok cSha, { r3 with index := [] })

/-- Parsing state of the line loop in `MiniGit.log`: header fields seen so
far, whether the blank separator line has been passed, and the collected
message lines.  The display-only conversion of the author line's trailing
timestamp (`rsplit` and `int`, used only to format the printed date) is
presentation glue outside the modelled core; the raw text after `author `
is kept instead. -/
structure ParseState : Type where
  tree : Option Str
  parent : Option Str
  author : Option Str
  inMessage : Bool
  messageLines : List Str
deriving DecidableEq

/-- Initial parsing state. -/
def parseInit : ParseState :=
  { tree := none, parent := none, author := none, inMessage := false, messageLines := [] }

/-- One step of the line loop in `MiniGit.log`. -/
def parseLine (st : ParseState) (line : Str) : ParseState :=
  if st.inMessage then { st with messageLines := st.messageLines ++ [line] }
  else if (str "tree ").isPrefixOf line then { st with tree := some (line.drop 5) }
  else if (str "parent ").isPrefixOf line then { st with parent := some (line.drop 7) }
  else if (str "author ").isPrefixOf line then { st with author := some (line.drop 7) }
  else if line = [] then { st with inMessage := true }
  else st

/-- Parse a commit payload as `MiniGit.log` does, line by line. -/
def parseCommit (payload : Str) : ParseState :=
  (splitNL payload).foldl parseLine parseInit

/-- Commit message recovered by `log`: message lines joined and stripped. -/
def commitMessageOf (st : ParseState) : Str := trim (joinNL st.messageLines)

/-- Outcome of the history loop of `MiniGit.log`, run with fuel: `more`
means the fuel was exhausted before the loop finished, `crash` that a stored
object without a NUL separator was read, `done` that the loop finished
having yielded the listed commits in order. -/
inductive HistOut : Type where
  | more : HistOut
  | crash : HistOut
  | done : List (Str × ParseState) → HistOut
deriving DecidableEq

/-- History loop of `MiniGit.log` (`while commit_sha:`): read the object,
stop silently if it is absent or not a commit, otherwise yield it and
continue with its parent field. -/
def historyFuel (r : Repo) : Str → Nat → HistOut
  | _, 0 => .more
  | sha, fuel + 1 =>
    if sha = [] then .done []
    else
      match readObject r sha with
      | .corrupt => .crash
      | .notFound => .done []
      | .found k payload =>
        if k = str "commit" then
          let cd := parseCommit payload
          match cd.parent with
          | some p =>
            match historyFuel r p fuel with
            | .done es => .done ((sha, cd) :: es)
            | .crash => .crash
            | .more => .more
          | none => .done [(sha, cd)]
        else .done []

/-- Complete history traversal from the current commit, with fuel one more
than the number of stored objects (shown sufficient for every reachable
state). -/
def history (r : Repo) : HistOut :=
  match getCurrentCommit r with
  | none => .done []
  | some sha => historyFuel r sha (r.objects.length + 1)

/-- Result of `MiniGit.log`. -/
inductive LogResult : Type where
  | uninit : LogResult
  | noCommits : LogResult
  | entries : HistOut → LogResult
deriving DecidableEq

/-- `MiniGit.log`: purely a reader of the repository state. -/
def logOp (r : Repo) : LogResult × Repo :=
  if r.initialized = false then (.uninit, r)
  else
    match getCurrentCommit r with
    | none => (.noCommits, r)
    | some sha =>
      if sha = [] then (.noCommits, r)
      else (.entries (historyFuel r sha (r.objects.length + 1)), r)

/-- Path order used by `status` to list staged files (`sorted(index.keys())`). -/
def strLe (a b : Str) : Prop := lexLt a b = true ∨ a = b

instance strLeDecidable : DecidableRel strLe := fun a b =>
  inferInstanceAs (Decidable (_ ∨ _))

/-- Result of `MiniGit.status`. -/
inductive StatusResult : Type where
  | uninit : StatusResult
  | report : Option Str → List Str → StatusResult
deriving DecidableEq

/-- `MiniGit.status`: current commit id and sorted staged paths; purely a
reader of the repository state. -/
def statusOp (r : Repo) : StatusResult × Repo :=
  if r.initialized = false then (.uninit, r)
  else
    (.report (getCurrentCommit r)
      (List.insertionSort strLe (r.index.map Prod.fst)), r)

/-- Outcome of one CLI invocation (`main`): which diagnostic or operation
result was printed. -/
inductive MainOut : Type where
  | usage : MainOut
  | ranInit : InitResult → MainOut
  | addNothing : MainOut
  | ranAdd : AddResult → MainOut
  | commitNoMsg : MainOut
  | ranCommit : CommitResult → MainOut
  | ranLog : LogResult → MainOut
  | ranStatus : StatusResult → MainOut
  | unknownCmd : MainOut
deriving DecidableEq

/-- `main`: dispatch on `argv[1:]`.  Returns the process exit status, the
printed outcome and the final repository state.  Only the usage errors call
`sys.exit(1)`; the operation methods print their diagnostics and return,
after which `main` falls off the end and the process exits with status 0. -/
def mainRun (H : Str → Str) (wt : WorkTree) (r : Repo) (argv : List Str) (ts : Nat) :
    Nat × MainOut × Repo :=
  match argv with
  | [] => (1, .usage, r)
  | cmd :: args =>
    if cmd = str "init" then
      let (o, r2) := initOp r
      (0, .ranInit o, r2)
    else if cmd = str "add" then
      match args with
      | [] => (1, .addNothing, r)
      | fp :: _ =>
        let (o, r2) := add H wt r fp
        (0, .ranAdd o, r2)
    else if cmd = str "commit" then
      match args with
      | a0 :: m :: _ =>
        if a0 = str "-m" then
          if m = [] then (1, .commitNoMsg, r)
          else
            let (o, r2) := commit H r m ts
            (0, .ranCommit o, r2)
        else (1, .commitNoMsg, r)
      | _ => (1, .commitNoMsg, r)
    else if cmd = str "log" then
      let (o, r2) := logOp r
      (0, .ranLog o, r2)
    else if cmd = str "status" then
      let (o, r2) := statusOp r
      (0, .ranStatus o, r2)
    else (1, .unknownCmd, r)

/-- Header lines of a stored commit payload: the lines before the first
blank separator line.  `log` reads `tree`, `parent` and `author` only from
this region, since the blank line switches it to collecting the message. -/
def headerOf (payload : Str) : List Str :=
  (splitNL payload).takeWhile (fun l => !l.isEmpty)

/-- Parent id the history loop would continue with after reading the given
stored object bytes: `none` when the object is not a commit, has no parent
header line, or has an empty (falsy) parent field. -/
def parentKeyOf (full : Str) : Option Str :=
  match splitAtNul full with
  | some (k, payload) =>
    if k = str "commit" then
      match (parseCommit payload).parent with
      | some p => if p = [] then none else some p
      | none => none
    else none
  | none => none

/-- Digest shape assumption: the id of every object is 40 lowercase
hexadecimal characters, as `hashlib.sha1(...).hexdigest()` produces. -/
def HashOK (H : Str → Str) : Prop :=
  ∀ s, (H s).length = 40 ∧ ∀ c ∈ H s, isHexCh c = true

/-- Lowercase hexadecimal digit character for a value below 16. -/
def hexChar (n : Nat) : Char := Char.ofNat (if n < 10 then 48 + n else 87 + n)

/-- Little-endian hexadecimal rendering of `v` with exactly `k` digits. -/
def toHex : Nat → Nat → Str
  | 0, _ => []
  | k + 1, v => hexChar (v % 16) :: toHex k (v / 16)

/-- One rolling step of the executable stand-in digest. -/
def mixStep (acc : Nat) (c : Char) : Nat := (acc * 131 + c.toNat + 7) % 2 ^ 80

/-- Executable stand-in digest used to instantiate `H` in witnesses: a
rolling checksum rendered as 40 lowercase hex characters, satisfying
`HashOK`. -/
def toyHash (s : Str) : Str := toHex 40 (s.foldl mixStep 5381)

/-- Header region of a commit payload assembled by `commit`, as lines. -/
def commitHeaderLines (tSha : Str) (par : Option Str) (ts : Nat) : List Str :=
  [str "tree " ++ tSha]
    ++ (match par with
        | some p => if p = [] then [] else [str "parent " ++ p]
        | none => [])
    ++ [authorLine ts, committerLine ts]


/-- Parent field the parser recovers from a payload with the given optional
parent line, as the history loop interprets it (an empty parent id is falsy
and stops the loop, like a missing one). -/
def parentFieldOf (par : Option Str) : Option Str :=
  match par with
  | some p => if p = [] then none else some p
  | none => none


/-- Strict version of the key order, used to show two sorted arrangements
of the same entries coincide when paths are unique. -/
def pairKeyLt (a b : Str × Str) : Prop := lexLt a.1 b.1 = true


/-! Reachable repository states.  The spec's history-termination argument
rests on the store being write-once ("each parent id must already exist in
the store before the child referencing it could have been created"), which
holds because the digest is assumed collision resistant.  `safeStores`
states that assumption for the stores one operation performs: a write never
replaces an object file with different bytes. -/

/-- One store of `full` either creates a fresh object file or rewrites an
existing one with identical bytes. -/
def freshOrSame (H : Str → Str) (objs : List (Str × Str)) (full : Str) : Bool :=
  objs.all (fun e => !(e.1 == H full) || (e.2 == full))

/-- Write-once condition for a sequence of stores performed in order. -/
def safeStores (H : Str → Str) : List (Str × Str) → List Str → Bool
  | _, [] => true
  | objs, f :: fs => freshOrSame H objs f && safeStores H (setKey objs (H f) f) fs

/-- Full object bytes stored by one `add` invocation. -/
def addStores (wt : WorkTree) (r : Repo) (fp : Str) : List Str :=
  if r.initialized = false then []
  else
    match lookupKey wt fp with
    | some (FsEntry.file content) => [fullContent (str "blob") content]
    | _ => []

/-- Full object bytes stored by one `commit` invocation. -/
def commitStores (H : Str → Str) (r : Repo) (msg : Str) (ts : Nat) : List Str :=
  if r.initialized = false then []
  else if r.index = [] then []
  else [treeFullOf r.index, commitFullOf H r msg ts]

/-- Repository states reachable from an absent repository through the public
operations, under the design's collision-freedom assumption on the digest
(every store step satisfies the write-once condition). -/
inductive Reach (H : Str → Str) : Repo → Prop where
  | start : Reach H emptyRepo
  | inited {r : Repo} : Reach H r → Reach H (initOp r).2
  | added {r : Repo} (wt : WorkTree) (fp : Str) : Reach H r →
      safeStores H r.objects (addStores wt r fp) = true →
      Reach H (add H wt r fp).2
  | committed {r : Repo} (msg : Str) (ts : Nat) : Reach H r →
      safeStores H r.objects (commitStores H r msg ts) = true →
      Reach H (commit H r msg ts).2
  | logged {r : Repo} : Reach H r → Reach H (logOp r).2
  | statused {r : Repo} : Reach H r → Reach H (statusOp r).2

/-- Acyclicity invariant of the object store: every stored commit object's
parent id, when the history loop would continue into it, names an object
stored strictly earlier. -/
def ParentsEarlier (objs : List (Str × Str)) : Prop :=
  ∀ (i : Nat) (sha c : Str), objs[i]? = some (sha, c) →
    ∀ p, parentKeyOf c = some p → p ∈ (objs.map Prod.fst).take i

/-- Invariant of every reachable repository state: an uninitialized state is
pristine, `HEAD` has its standard symbolic content, the master ref (when
present) holds a digest of a stored object plus newline, stored object files
all contain the NUL separator, and commit parents point strictly backwards
in store order. -/
structure Inv (H : Str → Str) (r : Repo) : Prop where
  uninit_empty : r.initialized = false → r = emptyRepo
  head_std : r.initialized = true → r.head = some headStd
  ref_shape : ∀ v, r.masterRef = some v →
    ∃ s, v = H s ++ [nlc] ∧ (lookupKey r.objects (H s)).isSome
  has_nul : ∀ e ∈ r.objects, nulc ∈ e.2
  parents : ParentsEarlier r.objects


/-! Shared concrete states used by the witnesses. -/

/-- Concrete working tree with one regular file and one directory. -/
def wtW : WorkTree := [(str "a.txt", FsEntry.file (str "hello")), (str "d", FsEntry.dir)]

/-- Freshly initialized repository. -/
def repoW0 : Repo := (initOp emptyRepo).2

/-- Repository with `a.txt` staged. -/
def repoW1 : Repo := (add toyHash wtW repoW0 (str "a.txt")).2


/-- Repository after the first commit of the witness scenario. -/
def repoW2 : Repo := (commit toyHash repoW1 (str "first") 100).2

/-- Repository with `a.txt` staged again. -/
def repoW3 : Repo := (add toyHash wtW repoW2 (str "a.txt")).2

/-- Repository after the second commit of the witness scenario. -/
def repoW4 : Repo := (commit toyHash repoW3 (str "second") 200).2


/-! Basic lemmas about the filesystem maps. -/

theorem lookupKey_setKey_self {α : Type} (l : List (Str × α)) (k : Str) (v : α) :
    lookupKey (setKey l k v) k = some v := by
  induction l with
  | nil => simp [setKey, lookupKey]
  | cons e es ih =>
    obtain ⟨k', v'⟩ := e
    by_cases h : k' = k
    · simp [setKey, h, lookupKey]
    · simp [setKey, h, lookupKey, ih]

theorem setKey_of_lookup_none {α : Type} {l : List (Str × α)} {k : Str}
    (v : α) (h : lookupKey l k = none) : setKey l k v = l ++ [(k, v)] := by
  induction l with
  | nil => simp [setKey]
  | cons e es ih =>
    obtain ⟨k', v'⟩ := e
    by_cases hk : k' = k
    · simp [lookupKey, hk] at h
    · simp [lookupKey, hk] at h
      simp [setKey, hk, ih h]

theorem setKey_of_lookup_self {α : Type} {l : List (Str × α)} {k : Str} {v : α}
    (h : lookupKey l k = some v) : setKey l k v = l := by
  induction l with
  | nil => simp [lookupKey] at h
  | cons e es ih =>
    obtain ⟨k', v'⟩ := e
    by_cases hk : k' = k
    · simp [lookupKey, hk] at h
      simp [setKey, hk, h]
    · simp [lookupKey, hk] at h
      simp [setKey, hk, ih h]

theorem lookupKey_append_of_none {α : Type} {l : List (Str × α)} {k : Str}
    (m : List (Str × α)) (h : lookupKey l k = none) :
    lookupKey (l ++ m) k = lookupKey m k := by
  induction l with
  | nil => simp
  | cons e es ih =>
    obtain ⟨k', v'⟩ := e
    by_cases hk : k' = k
    · simp [lookupKey, hk] at h
    · simp [lookupKey, hk] at h ⊢
      exact ih h

theorem lookupKey_append_of_some {α : Type} {l : List (Str × α)} {k : Str} {v : α}
    (m : List (Str × α)) (h : lookupKey l k = some v) :
    lookupKey (l ++ m) k = some v := by
  induction l with
  | nil => simp [lookupKey] at h
  | cons e es ih =>
    obtain ⟨k', v'⟩ := e
    by_cases hk : k' = k
    · simp [lookupKey, hk] at h ⊢
      exact h
    · simp [lookupKey, hk] at h ⊢
      exact ih h

theorem lookupKey_eq_none_iff {α : Type} {l : List (Str × α)} {k : Str} :
    lookupKey l k = none ↔ k ∉ l.map Prod.fst := by
  induction l with
  | nil => simp [lookupKey]
  | cons e es ih =>
    obtain ⟨k', v'⟩ := e
    by_cases hk : k' = k
    · subst hk
      simp only [lookupKey, if_pos rfl, List.map_cons, List.mem_cons]
      constructor
      · intro h; cases h
      · intro h; exact (h (Or.inl trivial)).elim
    · simp only [lookupKey, if_neg hk, List.map_cons, List.mem_cons, ih]
      constructor
      · intro h h2
        rcases h2 with h2 | h2
        · exact hk h2.symm
        · exact h h2
      · intro h h2
        exact h (Or.inr h2)

theorem posOf_eq_none_iff {α : Type} {l : List (Str × α)} {k : Str} :
    posOf l k = none ↔ lookupKey l k = none := by
  induction l with
  | nil => simp [posOf, lookupKey]
  | cons e es ih =>
    obtain ⟨k', v'⟩ := e
    by_cases hk : k' = k
    · simp [posOf, lookupKey, hk]
    · simp [posOf, lookupKey, hk, ih]

theorem posOf_spec {α : Type} :
    ∀ (l : List (Str × α)) (k : Str) (i : Nat), posOf l k = some i →
      ∃ v, l[i]? = some (k, v) ∧ lookupKey l k = some v := by
  intro l
  induction l with
  | nil => intro k i h; simp [posOf] at h
  | cons e es ih =>
    obtain ⟨k', v'⟩ := e
    intro k i h
    by_cases hk : k' = k
    · subst hk
      simp [posOf] at h
      cases h
      exact ⟨v', by simp, by simp [lookupKey]⟩
    · simp [posOf, hk] at h
      obtain ⟨j, hj, rfl⟩ := h
      obtain ⟨v, hv1, hv2⟩ := ih k j hj
      exact ⟨v, by simpa using hv1, by simpa [lookupKey, hk] using hv2⟩

theorem posOf_lt_of_mem_take {α : Type} :
    ∀ (l : List (Str × α)) (k : Str) (n : Nat), k ∈ (l.map Prod.fst).take n →
      ∃ j, posOf l k = some j ∧ j < n := by
  intro l
  induction l with
  | nil => intro k n h; simp at h
  | cons e es ih =>
    obtain ⟨k', v'⟩ := e
    intro k n h
    match n with
    | 0 => simp at h
    | n + 1 =>
      by_cases hk : k' = k
      · exact ⟨0, by simp [posOf, hk], Nat.succ_pos n⟩
      · simp [List.take_succ_cons, Ne.symm hk] at h
        obtain ⟨j, hj, hlt⟩ := ih k n h
        exact ⟨j + 1, by simp [posOf, hk, hj], Nat.succ_lt_succ hlt⟩

/-! Lemmas about the NUL-separated object encoding. -/

theorem splitAtNul_fullContent (kind : Str) (hk : nulc ∉ kind) (s : Str) :
    splitAtNul (fullContent kind s) = some (kind, s) := by
  induction kind with
  | nil => simp [fullContent, splitAtNul]
  | cons c cs ih =>
    simp at hk
    simp [fullContent] at ih ⊢
    simp [splitAtNul, Ne.symm hk.1, ih hk.2]

theorem splitAtNul_isSome_of_mem {c : Str} (h : nulc ∈ c) :
    ∃ k d, splitAtNul c = some (k, d) := by
  induction c with
  | nil => simp at h
  | cons a as ih =>
    by_cases ha : a = nulc
    · exact ⟨[], as, by simp [splitAtNul, ha]⟩
    · simp [List.mem_cons, Ne.symm ha] at h
      obtain ⟨k, d, hkd⟩ := ih h
      exact ⟨a :: k, d, by simp [splitAtNul, ha, hkd]⟩

/-! Lemmas about whitespace, hex digits and `trim`. -/

theorem dropWhile_eq_self_of_all {m : Str} (h : ∀ c ∈ m, isWs c = false) :
    m.dropWhile isWs = m := by
  cases m with
  | nil => rfl
  | cons b bs => simp [List.dropWhile_cons, h b (by simp)]

theorem not_ws_of_hex {c : Char} (h : isHexCh c = true) : isWs c = false := by
  simp only [isHexCh, Bool.or_eq_true, Bool.and_eq_true, decide_eq_true_eq] at h
  simp only [isWs, Bool.or_eq_false_iff, decide_eq_false_iff_not]
  omega

theorem ne_nl_of_hex {c : Char} (h : isHexCh c = true) : c ≠ nlc := by
  intro heq
  rw [heq] at h
  exact absurd h (by decide)

theorem trim_append_nl {l : Str} (hne : l ≠ []) (h : ∀ c ∈ l, isWs c = false) :
    trim (l ++ [nlc]) = l := by
  obtain ⟨a, l', rfl⟩ := List.exists_cons_of_ne_nil hne
  have ha : isWs a = false := h a (by simp)
  have h1 : ((a :: l') ++ [nlc]).dropWhile isWs = (a :: l') ++ [nlc] := by
    simp [List.cons_append, List.dropWhile_cons, ha]
  have h2 : ((a :: l') ++ [nlc]).reverse = nlc :: (a :: l').reverse := by
    simp
  have h3 : (nlc :: (a :: l').reverse).dropWhile isWs =
      ((a :: l').reverse).dropWhile isWs := by
    simp [List.dropWhile_cons, (by decide : isWs nlc = true)]
  have h4 : ((a :: l').reverse).dropWhile isWs = (a :: l').reverse :=
    dropWhile_eq_self_of_all (fun c hc => h c (List.mem_reverse.mp hc))
  unfold trim
  rw [h1, h2, h3, h4, List.reverse_reverse]

/-! Lemmas about decimal digits and the witness digest. -/

theorem digitChar_bounded_ne_nl : ∀ k, k < 10 → Nat.digitChar k ≠ nlc := by decide

theorem toDigitsCore_ne_nl :
    ∀ (fuel n : Nat) (ds : List Char), (∀ c ∈ ds, c ≠ nlc) →
      ∀ c ∈ Nat.toDigitsCore 10 fuel n ds, c ≠ nlc := by
  intro fuel
  induction fuel with
  | zero => intro n ds h; simpa [Nat.toDigitsCore] using h
  | succ f ih =>
    intro n ds h c hc
    rw [Nat.toDigitsCore] at hc
    have hd : Nat.digitChar (n % 10) ≠ nlc :=
      digitChar_bounded_ne_nl _ (Nat.mod_lt _ (by omega))
    by_cases h0 : n / 10 = 0
    · simp only [h0, if_pos rfl] at hc
      rcases List.mem_cons.mp hc with rfl | hc
      · exact hd
      · exact h c hc
    · simp only [if_neg h0] at hc
      refine ih (n / 10) _ ?_ c hc
      intro c' hc'
      rcases List.mem_cons.mp hc' with rfl | hc'
      · exact hd
      · exact h c' hc'

theorem natToStr_ne_nl (n : Nat) : ∀ c ∈ natToStr n, c ≠ nlc := by
  intro c hc
  exact toDigitsCore_ne_nl (n + 1) n [] (by simp) c hc

theorem nl_not_mem_natToStr (n : Nat) : nlc ∉ natToStr n :=
  fun h => natToStr_ne_nl n nlc h rfl

theorem toHex_length : ∀ (k v : Nat), (toHex k v).length = k := by
  intro k
  induction k with
  | zero => intro v; rfl
  | succ m ih => intro v; simp [toHex, ih]

theorem hexChar_bounded_hex : ∀ m, m < 16 → isHexCh (hexChar m) = true := by decide

theorem toHex_hex : ∀ (k v : Nat), ∀ c ∈ toHex k v, isHexCh c = true := by
  intro k
  induction k with
  | zero => intro v c hc; simp [toHex] at hc
  | succ m ih =>
    intro v c hc
    rcases List.mem_cons.mp hc with rfl | hc
    · exact hexChar_bounded_hex _ (Nat.mod_lt _ (by omega))
    · exact ih _ c hc

/-- The executable stand-in digest satisfies the digest shape assumption. -/
theorem toyHash_hashOK : HashOK toyHash :=
  fun s => ⟨toHex_length 40 _, fun c hc => toHex_hex 40 _ c hc⟩

/-! Lemmas about newline splitting and joining. -/

theorem splitNL_append_cons :
    ∀ (l : Str), nlc ∉ l → ∀ r, splitNL (l ++ nlc :: r) = l :: splitNL r := by
  intro l
  induction l with
  | nil => intro _ r; simp [splitNL]
  | cons c cs ih =>
    intro h r
    simp only [List.mem_cons, not_or] at h
    simp [splitNL, Ne.symm h.1, ih h.2 r]

theorem joinNL_cons_cons (x y : Str) (ys : List Str) :
    joinNL (x :: y :: ys) = x ++ nlc :: joinNL (y :: ys) := rfl

/-! Lemmas about list prefixes used by the commit-payload parser. -/

theorem not_prefix_of_isPrefixOf_false {l t : Str} (h : l.isPrefixOf t = false) :
    ¬ l <+: t := by
  intro hp
  have := List.isPrefixOf_iff_prefix.mpr hp
  rw [h] at this
  cases this

/-! Step lemmas for the line loop of `log`. -/

theorem parseLine_tree (st : ParseState) (h : st.inMessage = false) (x : Str) :
    parseLine st (str "tree " ++ x) = { st with tree := some x } := by
  simp [parseLine, h, List.prefix_append,
    List.drop_left' (by rfl : (str "tree ").length = 5)]

theorem parseLine_parent (st : ParseState) (h : st.inMessage = false) (x : Str) :
    parseLine st (str "parent " ++ x) = { st with parent := some x } := by
  simp [parseLine, h, List.prefix_append,
    not_prefix_of_isPrefixOf_false
      (rfl : (str "tree ").isPrefixOf (str "parent " ++ x) = false),
    List.drop_left' (by rfl : (str "parent ").length = 7)]

theorem parseLine_author (st : ParseState) (h : st.inMessage = false) (x : Str) :
    parseLine st (str "author " ++ x) = { st with author := some x } := by
  simp [parseLine, h, List.prefix_append,
    not_prefix_of_isPrefixOf_false
      (rfl : (str "tree ").isPrefixOf (str "author " ++ x) = false),
    not_prefix_of_isPrefixOf_false
      (rfl : (str "parent ").isPrefixOf (str "author " ++ x) = false),
    List.drop_left' (by rfl : (str "author ").length = 7)]

theorem parseLine_committer (st : ParseState) (h : st.inMessage = false) (x : Str) :
    parseLine st (str "committer " ++ x) = st := by
  simp [parseLine, h,
    not_prefix_of_isPrefixOf_false
      (rfl : (str "tree ").isPrefixOf (str "committer " ++ x) = false),
    not_prefix_of_isPrefixOf_false
      (rfl : (str "parent ").isPrefixOf (str "committer " ++ x) = false),
    not_prefix_of_isPrefixOf_false
      (rfl : (str "author ").isPrefixOf (str "committer " ++ x) = false),
    (by decide : ¬ str "committer " = [])]

theorem parseLine_blank (st : ParseState) (h : st.inMessage = false) :
    parseLine st [] = { st with inMessage := true } := by
  simp [parseLine, h,
    not_prefix_of_isPrefixOf_false ((by simp [List.isPrefixOf]) :
      (str "tree ").isPrefixOf ([] : Str) = false),
    not_prefix_of_isPrefixOf_false ((by simp [List.isPrefixOf]) :
      (str "parent ").isPrefixOf ([] : Str) = false),
    not_prefix_of_isPrefixOf_false ((by simp [List.isPrefixOf]) :
      (str "author ").isPrefixOf ([] : Str) = false)]

theorem parseLine_msg (st : ParseState) (h : st.inMessage = true) (l : Str) :
    parseLine st l = { st with messageLines := st.messageLines ++ [l] } := by
  simp [parseLine, h]

theorem foldl_parseLine_msg :
    ∀ (ls : List Str) (st : ParseState), st.inMessage = true →
      ls.foldl parseLine st = { st with messageLines := st.messageLines ++ ls } := by
  intro ls
  induction ls with
  | nil => intro st h; simp
  | cons l ls ih =>
    intro st h
    rw [List.foldl_cons, parseLine_msg st h l,
      ih { st with messageLines := st.messageLines ++ [l] }
        (show ({ st with messageLines := st.messageLines ++ [l] } :
          ParseState).inMessage = true from h)]
    simp

/-! Characterization of the parse of a payload assembled by `commit`. -/

theorem commitLinesOf_eq (tSha : Str) (par : Option Str) (ts : Nat) (msg : Str) :
    commitLinesOf tSha par ts msg = commitHeaderLines tSha par ts ++ [[], msg] := by
  cases par with
  | none => simp [commitLinesOf, commitHeaderLines]
  | some p =>
    by_cases hp : p = [] <;> simp [commitLinesOf, commitHeaderLines, hp]

theorem nl_not_mem_authorLine (ts : Nat) : nlc ∉ authorLine ts := by
  intro h
  unfold authorLine authorStr at h
  rcases List.mem_append.mp h with h | h
  · exact absurd h (by decide)
  · rcases List.mem_cons.mp h with h | h
    · exact absurd h (by decide)
    · exact nl_not_mem_natToStr ts h

theorem nl_not_mem_committerLine (ts : Nat) : nlc ∉ committerLine ts := by
  intro h
  unfold committerLine authorStr at h
  rcases List.mem_append.mp h with h | h
  · exact absurd h (by decide)
  · rcases List.mem_cons.mp h with h | h
    · exact absurd h (by decide)
    · exact nl_not_mem_natToStr ts h

theorem nl_not_mem_headerLines (tSha : Str) (par : Option Str) (ts : Nat)
    (ht : nlc ∉ tSha) (hp : ∀ p, par = some p → nlc ∉ p) :
    ∀ l ∈ commitHeaderLines tSha par ts, nlc ∉ l := by
  intro l hl hmem
  unfold commitHeaderLines at hl
  rcases List.mem_append.mp hl with hl | hl
  · rcases List.mem_append.mp hl with hl | hl
    · rcases List.mem_singleton.mp hl with rfl
      rcases List.mem_append.mp hmem with h | h
      · exact absurd h (by decide)
      · exact ht h
    · cases par with
      | none => simp at hl
      | some p =>
        by_cases hp0 : p = []
        · simp [hp0] at hl
        · simp [hp0] at hl
          subst hl
          rcases List.mem_append.mp hmem with h | h
          · exact absurd h (by decide)
          · exact hp p rfl h
  · rcases List.mem_cons.mp hl with rfl | hl
    · exact nl_not_mem_authorLine ts hmem
    · rcases List.mem_singleton.mp hl with rfl
      exact nl_not_mem_committerLine ts hmem

theorem splitNL_nl_cons (r : Str) : splitNL (nlc :: r) = [] :: splitNL r := by
  simp [splitNL]

theorem joinNL_cons_ne (l : Str) {ls : List Str} (h : ls ≠ []) :
    joinNL (l :: ls) = l ++ nlc :: joinNL ls := by
  cases ls with
  | nil => exact absurd rfl h
  | cons y ys => rfl

theorem splitNL_joinNL_header :
    ∀ (hs : List Str), (∀ l ∈ hs, nlc ∉ l) → ∀ (msg : Str),
      splitNL (joinNL (hs ++ [[], msg])) = hs ++ [] :: splitNL msg := by
  intro hs
  induction hs with
  | nil =>
    intro _ msg
    show splitNL (joinNL [[], msg]) = [] :: splitNL msg
    rw [joinNL_cons_ne [] (by simp), List.nil_append, joinNL, splitNL_nl_cons]
  | cons l hs ih =>
    intro h msg
    rw [List.cons_append, joinNL_cons_ne l (by simp),
      splitNL_append_cons l (h l (by simp)) _, ih (fun x hx => h x (by simp [hx])) msg,
      List.cons_append]

theorem splitNL_commitPayload (tSha : Str) (par : Option Str) (ts : Nat) (msg : Str)
    (ht : nlc ∉ tSha) (hp : ∀ p, par = some p → nlc ∉ p) :
    splitNL (joinNL (commitLinesOf tSha par ts msg)) =
      commitHeaderLines tSha par ts ++ [] :: splitNL msg := by
  rw [commitLinesOf_eq]
  exact splitNL_joinNL_header _ (nl_not_mem_headerLines tSha par ts ht hp) msg

theorem takeWhile_header :
    ∀ (hs : List Str), (∀ l ∈ hs, l ≠ []) → ∀ (rest : List Str),
      (hs ++ [] :: rest).takeWhile (fun l => !l.isEmpty) = hs := by
  intro hs
  induction hs with
  | nil => intro _ rest; simp [List.takeWhile_cons]
  | cons l hs ih =>
    intro h rest
    have hne : l.isEmpty = false := by
      cases l with
      | nil => exact absurd rfl (h [] (by simp))
      | cons a as => rfl
    rw [List.cons_append, List.takeWhile_cons, hne, Bool.not_false, if_pos rfl,
      ih (fun x hx => h x (by simp [hx])) rest]

theorem headerLines_ne_nil (tSha : Str) (par : Option Str) (ts : Nat) :
    ∀ l ∈ commitHeaderLines tSha par ts, l ≠ [] := by
  intro l hl
  unfold commitHeaderLines at hl
  rcases List.mem_append.mp hl with hl | hl
  · rcases List.mem_append.mp hl with hl | hl
    · rcases List.mem_singleton.mp hl with rfl
      simp [str]
    · cases par with
      | none => simp at hl
      | some p =>
        by_cases hp0 : p = []
        · simp [hp0] at hl
        · simp [hp0] at hl
          subst hl
          simp [str]
  · rcases List.mem_cons.mp hl with rfl | hl
    · simp [authorLine, str]
    · rcases List.mem_singleton.mp hl with rfl
      simp [committerLine, str]

theorem authorLine_eq (ts : Nat) :
    authorLine ts = str "author " ++ (authorStr ++ ' ' :: natToStr ts) := by
  simp [authorLine, List.append_assoc]

theorem committerLine_eq (ts : Nat) :
    committerLine ts = str "committer " ++ (authorStr ++ ' ' :: natToStr ts) := by
  simp [committerLine, List.append_assoc]

theorem parseCommit_commitPayload (tSha : Str) (par : Option Str) (ts : Nat) (msg : Str)
    (ht : nlc ∉ tSha) (hp : ∀ p, par = some p → nlc ∉ p) :
    parseCommit (joinNL (commitLinesOf tSha par ts msg)) =
      { tree := some tSha,
        parent := parentFieldOf par,
        author := some (authorStr ++ ' ' :: natToStr ts),
        inMessage := true,
        messageLines := splitNL msg } := by
  unfold parseCommit
  rw [splitNL_commitPayload tSha par ts msg ht hp]
  cases par with
  | none =>
    show List.foldl parseLine parseInit
        ((str "tree " ++ tSha) :: authorLine ts :: committerLine ts :: [] :: splitNL msg) = _
    rw [List.foldl_cons, parseLine_tree _ rfl, List.foldl_cons, authorLine_eq,
      parseLine_author _ rfl, List.foldl_cons, committerLine_eq,
      parseLine_committer _ rfl, List.foldl_cons, parseLine_blank _ rfl,
      foldl_parseLine_msg _ _ rfl]
    simp [parseInit, parentFieldOf]
  | some p =>
    by_cases hp0 : p = []
    · subst hp0
      show List.foldl parseLine parseInit
          ((str "tree " ++ tSha) :: authorLine ts :: committerLine ts :: [] :: splitNL msg) = _
      rw [List.foldl_cons, parseLine_tree _ rfl, List.foldl_cons, authorLine_eq,
        parseLine_author _ rfl, List.foldl_cons, committerLine_eq,
        parseLine_committer _ rfl, List.foldl_cons, parseLine_blank _ rfl,
        foldl_parseLine_msg _ _ rfl]
      simp [parseInit, parentFieldOf]
    · simp only [commitHeaderLines]
      rw [if_neg hp0]
      simp only [List.cons_append, List.nil_append, List.singleton_append]
      rw [List.foldl_cons, parseLine_tree _ rfl, List.foldl_cons, parseLine_parent _ rfl,
        List.foldl_cons, authorLine_eq, parseLine_author _ rfl, List.foldl_cons,
        committerLine_eq, parseLine_committer _ rfl, List.foldl_cons,
        parseLine_blank _ rfl, foldl_parseLine_msg _ _ rfl]
      simp [hp0, parseInit, parentFieldOf]

theorem headerOf_commitPayload (tSha : Str) (par : Option Str) (ts : Nat) (msg : Str)
    (ht : nlc ∉ tSha) (hp : ∀ p, par = some p → nlc ∉ p) :
    headerOf (joinNL (commitLinesOf tSha par ts msg)) = commitHeaderLines tSha par ts := by
  unfold headerOf
  rw [splitNL_commitPayload tSha par ts msg ht hp]
  exact takeWhile_header _ (headerLines_ne_nil tSha par ts) _

/-! Ordering lemmas for the path sort used by the tree builder. -/

theorem char_eq_of_toNat_eq {a b : Char} (h : a.toNat = b.toNat) : a = b :=
  Char.ext (UInt32.ext h)

theorem lexLt_asymm : ∀ {a b : Str}, lexLt a b = true → lexLt b a = false := by
  intro a
  induction a with
  | nil =>
    intro b h
    cases b with
    | nil => simp [lexLt] at h
    | cons y ys => simp [lexLt]
  | cons x xs ih =>
    intro b h
    cases b with
    | nil => simp [lexLt] at h
    | cons y ys =>
      simp only [lexLt] at h ⊢
      by_cases h1 : x.toNat < y.toNat
      · rw [if_neg (by omega), if_pos h1]
      · by_cases h2 : y.toNat < x.toNat
        · rw [if_neg h1, if_pos h2] at h
          cases h
        · rw [if_neg h1, if_neg h2] at h
          rw [if_neg h2, if_neg h1]
          exact ih h

theorem lexLt_connex : ∀ {a b : Str}, lexLt a b = false → lexLt b a = false → a = b := by
  intro a
  induction a with
  | nil =>
    intro b h1 h2
    cases b with
    | nil => rfl
    | cons y ys => simp [lexLt] at h1
  | cons x xs ih =>
    intro b h1 h2
    cases b with
    | nil => simp [lexLt] at h2
    | cons y ys =>
      simp only [lexLt] at h1 h2
      by_cases hx : x.toNat < y.toNat
      · rw [if_pos hx] at h1; cases h1
      · by_cases hy : y.toNat < x.toNat
        · rw [if_pos hy] at h2; cases h2
        · rw [if_neg hx, if_neg hy] at h1
          rw [if_neg hy, if_neg hx] at h2
          have hxy : x = y := char_eq_of_toNat_eq (by omega)
          rw [hxy, ih h1 h2]

theorem lexLt_trans : ∀ {a b c : Str}, lexLt a b = true → lexLt b c = true →
    lexLt a c = true := by
  intro a
  induction a with
  | nil =>
    intro b c h1 h2
    cases b with
    | nil => simp [lexLt] at h1
    | cons y ys =>
      cases c with
      | nil => simp [lexLt] at h2
      | cons z zs => simp [lexLt]
  | cons x xs ih =>
    intro b c h1 h2
    cases b with
    | nil => simp [lexLt] at h1
    | cons y ys =>
      cases c with
      | nil => simp [lexLt] at h2
      | cons z zs =>
        simp only [lexLt] at h1 h2 ⊢
        by_cases hxy : x.toNat < y.toNat
        · by_cases hyz : y.toNat < z.toNat
          · rw [if_pos (by omega)]
          · by_cases hzy : z.toNat < y.toNat
            · rw [if_neg hyz, if_pos hzy] at h2; cases h2
            · rw [if_pos (by omega)]
        · by_cases hyx : y.toNat < x.toNat
          · rw [if_neg hxy, if_pos hyx] at h1; cases h1
          · rw [if_neg hxy, if_neg hyx] at h1
            by_cases hyz : y.toNat < z.toNat
            · rw [if_pos (by omega)]
            · by_cases hzy : z.toNat < y.toNat
              · rw [if_neg hyz, if_pos hzy] at h2; cases h2
              · rw [if_neg hyz, if_neg hzy] at h2
                rw [if_neg (by omega), if_neg (by omega)]
                exact ih h1 h2

instance pairLeTotal : IsTotal (Str × Str) pairLe where
  total := by
    intro a b
    cases hab : lexLt a.1 b.1 with
    | true => exact Or.inl (Or.inl hab)
    | false =>
      cases hba : lexLt b.1 a.1 with
      | true => exact Or.inr (Or.inl hba)
      | false => exact Or.inl (Or.inr (lexLt_connex hab hba))

instance pairLeTrans : IsTrans (Str × Str) pairLe where
  trans := by
    intro a b c h1 h2
    rcases h1 with h1 | h1
    · rcases h2 with h2 | h2
      · exact Or.inl (lexLt_trans h1 h2)
      · exact Or.inl (h2 ▸ h1)
    · rcases h2 with h2 | h2
      · exact Or.inl (h1 ▸ h2)
      · exact Or.inr (h1.trans h2)

instance pairKeyLtAntisymm : IsAntisymm (Str × Str) pairKeyLt where
  antisymm := by
    intro a b h1 h2
    have h3 := lexLt_asymm h1
    unfold pairKeyLt at h2
    rw [h3] at h2
    cases h2

theorem sorted_pairKeyLt_of_sorted {l : List (Str × Str)}
    (hs : List.Sorted pairLe l) (hnd : (l.map Prod.fst).Nodup) :
    List.Sorted pairKeyLt l := by
  have hne : List.Pairwise (fun a b : Str × Str => a.1 ≠ b.1) l :=
    List.pairwise_map.mp hnd
  refine (hs.and hne).imp ?_
  intro a b h
  rcases h.1 with h1 | h1
  · exact h1
  · exact absurd h1 h.2

/-- Two staging indexes with the same path-to-id pairs and unique paths
serialize their entries in the same sorted order. -/
theorem sortIndex_eq_of_perm {i1 i2 : List (Str × Str)} (hperm : i1.Perm i2)
    (hnd : (i1.map Prod.fst).Nodup) : sortIndex i1 = sortIndex i2 := by
  have hnd2 : (i2.map Prod.fst).Nodup := ((hperm.map Prod.fst).nodup_iff).mp hnd
  have hp : (sortIndex i1).Perm (sortIndex i2) :=
    ((List.perm_insertionSort pairLe i1).trans hperm).trans
      (List.perm_insertionSort pairLe i2).symm
  have hs1 : List.Sorted pairKeyLt (sortIndex i1) :=
    sorted_pairKeyLt_of_sorted (List.sorted_insertionSort pairLe i1)
      ((((List.perm_insertionSort pairLe i1).map Prod.fst).nodup_iff).mpr hnd)
  have hs2 : List.Sorted pairKeyLt (sortIndex i2) :=
    sorted_pairKeyLt_of_sorted (List.sorted_insertionSort pairLe i2)
      ((((List.perm_insertionSort pairLe i2).map Prod.fst).nodup_iff).mpr hnd2)
  exact List.eq_of_perm_of_sorted hp hs1 hs2

/-! Derived facts about well-shaped digests. -/

theorem hash_ne_nil {H : Str → Str} (hh : HashOK H) (s : Str) : H s ≠ [] := by
  intro h
  have := (hh s).1
  rw [h] at this
  cases this

theorem hash_not_short {H : Str → Str} (hh : HashOK H) (s : Str) :
    ¬ (H s).length < 3 := by
  have := (hh s).1
  omega

theorem hash_no_ws {H : Str → Str} (hh : HashOK H) (s : Str) :
    ∀ c ∈ H s, isWs c = false :=
  fun c hc => not_ws_of_hex ((hh s).2 c hc)

theorem hash_no_nl {H : Str → Str} (hh : HashOK H) (s : Str) : nlc ∉ H s :=
  fun h => ne_nl_of_hex ((hh s).2 _ h) rfl

theorem trim_hash_nl {H : Str → Str} (hh : HashOK H) (s : Str) :
    trim (H s ++ [nlc]) = H s :=
  trim_append_nl (hash_ne_nil hh s) (hash_no_ws hh s)

/-! Unfolding lemmas for the repository operations. -/

theorem getCurrentCommit_eq (r : Repo) (hh : r.head = some headStd) :
    getCurrentCommit r =
      (match r.masterRef with
       | some c => some (trim c)
       | none => none) := by
  unfold getCurrentCommit
  rw [hh]
  have h1 : (str "ref: ").isPrefixOf (trim headStd) = true := by decide
  have h2 : (trim headStd).drop 5 = str "refs/heads/master" := by decide
  simp [h1, h2]

theorem setCurrentCommit_eq (r : Repo) (sha : Str) (hh : r.head = some headStd) :
    setCurrentCommit r sha = { r with masterRef := some (sha ++ [nlc]) } := by
  unfold setCurrentCommit
  rw [hh]
  have h1 : (str "ref: ").isPrefixOf (trim headStd) = true := by decide
  have h2 : (trim headStd).drop 5 = str "refs/heads/master" := by decide
  simp [h1, h2]

theorem add_success (H : Str → Str) (wt : WorkTree) (r : Repo) (fp content : Str)
    (hi : r.initialized = true) (hwt : lookupKey wt fp = some (FsEntry.file content)) :
    add H wt r fp =
      (.ok (H (fullContent (str "blob") content)),
        { r with
            objects := setKey r.objects (H (fullContent (str "blob") content))
              (fullContent (str "blob") content),
            index := setKey r.index fp (H (fullContent (str "blob") content)) }) := by
  unfold add hashObject
  rw [hi, hwt]
  simp

theorem commit_success_std (H : Str → Str) (r : Repo) (msg : Str) (ts : Nat)
    (hi : r.initialized = true) (hne : r.index ≠ []) (hhead : r.head = some headStd) :
    commit H r msg ts =
      (.ok (commitShaOf H r msg ts),
        { initialized := r.initialized,
          objects := setKey (setKey r.objects (treeShaOf H r.index) (treeFullOf r.index))
            (commitShaOf H r msg ts) (commitFullOf H r msg ts),
          head := r.head,
          masterRef := some (commitShaOf H r msg ts ++ [nlc]),
          index := [] }) := by
  unfold commit
  rw [if_neg (by simp [hi]), if_neg hne]
  dsimp only
  rw [setCurrentCommit_eq]
  exact hhead

theorem add_uninit_eq (H : Str → Str) (wt : WorkTree) (r : Repo) (fp : Str)
    (hi : r.initialized = false) : add H wt r fp = (.uninit, r) := by
  unfold add
  rw [if_pos hi]

theorem add_pathNotFound_eq (H : Str → Str) (wt : WorkTree) (r : Repo) (fp : Str)
    (hi : r.initialized = true) (hw : lookupKey wt fp = none) :
    add H wt r fp = (.pathNotFound, r) := by
  unfold add
  rw [if_neg (by simp [hi]), hw]

theorem add_isDirectory_eq (H : Str → Str) (wt : WorkTree) (r : Repo) (fp : Str)
    (hi : r.initialized = true) (hw : lookupKey wt fp = some FsEntry.dir) :
    add H wt r fp = (.isDirectory, r) := by
  unfold add
  rw [if_neg (by simp [hi]), hw]

theorem commit_uninit_eq (H : Str → Str) (r : Repo) (msg : Str) (ts : Nat)
    (hi : r.initialized = false) : commit H r msg ts = (.uninit, r) := by
  unfold commit
  rw [if_pos hi]

theorem commit_empty_eq (H : Str → Str) (r : Repo) (msg : Str) (ts : Nat)
    (hi : r.initialized = true) (he : r.index = []) :
    commit H r msg ts = (.empty, r) := by
  unfold commit
  rw [if_neg (by simp [hi]), if_pos he]

theorem mainRun_add_eq (H : Str → Str) (wt : WorkTree) (r : Repo) (fp : Str) (ts : Nat)
    (o : AddResult) (r2 : Repo) (ha : add H wt r fp = (o, r2)) :
    mainRun H wt r [str "add", fp] ts = (0, .ranAdd o, r2) := by
  unfold mainRun
  dsimp only
  rw [if_neg (by decide), if_pos rfl, ha]

theorem mainRun_commit_eq (H : Str → Str) (wt : WorkTree) (r : Repo) (msg : Str) (ts : Nat)
    (o : CommitResult) (r2 : Repo) (hm : msg ≠ []) (hc : commit H r msg ts = (o, r2)) :
    mainRun H wt r [str "commit", str "-m", msg] ts = (0, .ranCommit o, r2) := by
  unfold mainRun
  dsimp only
  rw [if_neg (by decide), if_neg (by decide), if_pos rfl, if_pos rfl, if_neg hm, hc]

/-! Claim theorems. -/

/-- C1: for every string `s`, storing `s` as a blob and then loading the
returned id succeeds and yields kind `blob` and payload `s`. -/
theorem C1_store_load_round_trip (H : Str → Str) (hh : HashOK H) (r : Repo) (s : Str) :
    readObject (hashObject H r (str "blob") s).2 (hashObject H r (str "blob") s).1 =
      .found (str "blob") s := by
  unfold hashObject readObject
  dsimp only
  rw [if_neg (hash_not_short hh _), lookupKey_setKey_self]
  dsimp only
  rw [splitAtNul_fullContent _ (by decide)]

theorem C1_store_load_round_trip_witness :
    readObject (hashObject toyHash emptyRepo (str "blob") (str "hello")).2
      (hashObject toyHash emptyRepo (str "blob") (str "hello")).1 =
      .found (str "blob") (str "hello") :=
  C1_store_load_round_trip toyHash toyHash_hashOK emptyRepo (str "hello")

/-- C2: two staging indexes with the same path-to-blobId pairs (in any
order, paths unique) yield the same serialized tree and hence the same tree
id, because entries are serialized in path-sorted order before hashing. -/
theorem C2_tree_determinism (H : Str → Str) (i1 i2 : List (Str × Str))
    (hperm : i1.Perm i2) (hnd : (i1.map Prod.fst).Nodup) :
    treeContentOf i1 = treeContentOf i2 ∧ treeShaOf H i1 = treeShaOf H i2 := by
  have h : treeContentOf i1 = treeContentOf i2 := by
    unfold treeContentOf
    rw [sortIndex_eq_of_perm hperm hnd]
  exact ⟨h, by unfold treeShaOf treeFullOf; rw [h]⟩

theorem C2_tree_determinism_witness :
    treeContentOf [(str "a", str "1"), (str "b", str "2")] =
      treeContentOf [(str "b", str "2"), (str "a", str "1")] ∧
    treeShaOf toyHash [(str "a", str "1"), (str "b", str "2")] =
      treeShaOf toyHash [(str "b", str "2"), (str "a", str "1")] :=
  C2_tree_determinism toyHash _ _ (by decide) (by decide)

/-- C5: commit on an initialized repository with an empty staging index
refuses with the `Nothing to commit` diagnostic and leaves the state, and in
particular the current commit, entirely unchanged (`none` when there are no
prior commits). -/
theorem C5_empty_commit_rejected (H : Str → Str) (r : Repo) (msg : Str) (ts : Nat)
    (hi : r.initialized = true) (he : r.index = []) :
    commit H r msg ts = (.empty, r) ∧
    getCurrentCommit (commit H r msg ts).2 = getCurrentCommit r ∧
    (r.head = some headStd → r.masterRef = none → getCurrentCommit r = none) := by
  have h1 := commit_empty_eq H r msg ts hi he
  refine ⟨h1, by rw [h1], fun hh hm => ?_⟩
  rw [getCurrentCommit_eq r hh, hm]

theorem C5_empty_commit_rejected_witness :
    commit toyHash repoW0 (str "m") 3 = (.empty, repoW0) ∧
    getCurrentCommit (commit toyHash repoW0 (str "m") 3).2 = getCurrentCommit repoW0 ∧
    (repoW0.head = some headStd → repoW0.masterRef = none →
      getCurrentCommit repoW0 = none) :=
  C5_empty_commit_rejected toyHash repoW0 (str "m") 3 (by decide) (by decide)

/-- C6: after every successful commit (initialized repository, non-empty
index at the start of the call) the staging index is empty. -/
theorem C6_commit_clears_index (H : Str → Str) (r : Repo) (msg : Str) (ts : Nat)
    (hi : r.initialized = true) (hne : r.index ≠ []) :
    (commit H r msg ts).2.index = [] := by
  unfold commit
  rw [if_neg (by simp [hi]), if_neg hne]

theorem C6_commit_clears_index_witness :
    (commit toyHash repoW1 (str "m") 3).2.index = [] :=
  C6_commit_clears_index toyHash repoW1 (str "m") 3 (by decide) (by decide)

/-- C7: loading an id that is syntactically too short to address an object
file, or whose object file is absent, returns the `notFound` absence value
(no crash). -/
theorem C7_load_not_found (r : Repo) (sha : Str)
    (h : sha.length < 3 ∨ lookupKey r.objects sha = none) :
    readObject r sha = .notFound := by
  unfold readObject
  rcases h with h | h
  · rw [if_pos h]
  · by_cases h3 : sha.length < 3
    · rw [if_pos h3]
    · rw [if_neg h3, h]

theorem C7_load_not_found_witness :
    readObject repoW1 (str "ab") = .notFound ∧
    readObject repoW1 (str "zzzzzzzzzzzzzzzzzzzzzzzzzzzzzzzzzzzzzzzz") = .notFound :=
  ⟨C7_load_not_found repoW1 (str "ab") (Or.inl (by decide)),
   C7_load_not_found repoW1 (str "zzzzzzzzzzzzzzzzzzzzzzzzzzzzzzzzzzzzzzzz")
     (Or.inr (by decide))⟩

/-- C8 counterexample: initializing a fresh repository creates no ref for
master at all — the ref file is absent (`masterRef = none`), not present
with an empty value, so no ref exists after `init`. -/
theorem C8_counterexample : ¬ ∃ v, (initOp emptyRepo).2.masterRef = some v := by
  intro h
  obtain ⟨v, hv⟩ := h
  rw [show (initOp emptyRepo).2.masterRef = none from rfl] at hv
  cases hv

/-- C8 amended: initialization leaves the master ref absent (no commit
yet); every subsequent successful commit writes the ref in place to the new
commit id (creating the file on the first commit). -/
theorem C8_init_ref_absent_commit_updates :
    (initOp emptyRepo).2.masterRef = none ∧
    ∀ (H : Str → Str) (r : Repo) (msg : Str) (ts : Nat),
      r.head = some headStd → r.initialized = true → r.index ≠ [] →
        (commit H r msg ts).1 = .ok (commitShaOf H r msg ts) ∧
        (commit H r msg ts).2.masterRef = some (commitShaOf H r msg ts ++ [nlc]) := by
  refine ⟨rfl, ?_⟩
  intro H r msg ts hh hi hne
  rw [commit_success_std H r msg ts hi hne hh]
  exact ⟨rfl, rfl⟩

theorem C8_init_ref_absent_commit_updates_witness :
    (initOp emptyRepo).2.masterRef = none ∧
    (commit toyHash repoW1 (str "m") 7).1 = .ok (commitShaOf toyHash repoW1 (str "m") 7) ∧
    (commit toyHash repoW1 (str "m") 7).2.masterRef =
      some (commitShaOf toyHash repoW1 (str "m") 7 ++ [nlc]) :=
  ⟨C8_init_ref_absent_commit_updates.1,
   C8_init_ref_absent_commit_updates.2 toyHash repoW1 (str "m") 7
     (by decide) (by decide) (by decide)⟩

/-- C9 counterexample: a recoverable condition (commit with an empty index)
prints its diagnostic and leaves the state unchanged, but the process exit
status is 0, not non-zero as the claim requires. -/
theorem C9_counterexample :
    mainRun toyHash [] repoW0 [str "commit", str "-m", str "x"] 5 =
      (0, .ranCommit .empty, repoW0) := by
  exact mainRun_commit_eq toyHash [] repoW0 (str "x") 5 _ _ (by decide)
    (commit_empty_eq toyHash repoW0 (str "x") 5 (by decide) (by decide))

/-- C9 amended: for every recoverable failure condition (uninitialized
repository, path not found, unsupported directory path, empty commit) the
command prints a diagnostic and leaves all persisted state unchanged, but
the process terminates with exit status 0; only usage errors exit
non-zero. -/
theorem C9_recoverable_diag_state_unchanged (H : Str → Str) (wt : WorkTree) (r : Repo)
    (fp msg : Str) (ts : Nat) (hm : msg ≠ []) :
    (r.initialized = false →
      mainRun H wt r [str "add", fp] ts = (0, .ranAdd .uninit, r) ∧
      mainRun H wt r [str "commit", str "-m", msg] ts = (0, .ranCommit .uninit, r)) ∧
    (r.initialized = true → lookupKey wt fp = none →
      mainRun H wt r [str "add", fp] ts = (0, .ranAdd .pathNotFound, r)) ∧
    (r.initialized = true → lookupKey wt fp = some FsEntry.dir →
      mainRun H wt r [str "add", fp] ts = (0, .ranAdd .isDirectory, r)) ∧
    (r.initialized = true → r.index = [] →
      mainRun H wt r [str "commit", str "-m", msg] ts = (0, .ranCommit .empty, r)) := by
  refine ⟨fun hi => ⟨?_, ?_⟩, fun hi hw => ?_, fun hi hw => ?_, fun hi he => ?_⟩
  · exact mainRun_add_eq H wt r fp ts _ _ (add_uninit_eq H wt r fp hi)
  · exact mainRun_commit_eq H wt r msg ts _ _ hm (commit_uninit_eq H r msg ts hi)
  · exact mainRun_add_eq H wt r fp ts _ _ (add_pathNotFound_eq H wt r fp hi hw)
  · exact mainRun_add_eq H wt r fp ts _ _ (add_isDirectory_eq H wt r fp hi hw)
  · exact mainRun_commit_eq H wt r msg ts _ _ hm (commit_empty_eq H r msg ts hi he)

theorem C9_recoverable_witness :
    mainRun toyHash wtW emptyRepo [str "add", str "a.txt"] 5 =
      (0, .ranAdd .uninit, emptyRepo) ∧
    mainRun toyHash wtW repoW0 [str "add", str "nope"] 5 =
      (0, .ranAdd .pathNotFound, repoW0) ∧
    mainRun toyHash wtW repoW0 [str "add", str "d"] 5 =
      (0, .ranAdd .isDirectory, repoW0) ∧
    mainRun toyHash wtW repoW0 [str "commit", str "-m", str "x"] 5 =
      (0, .ranCommit .empty, repoW0) :=
  ⟨((C9_recoverable_diag_state_unchanged toyHash wtW emptyRepo (str "a.txt") (str "x") 5
      (by decide)).1 rfl).1,
   (C9_recoverable_diag_state_unchanged toyHash wtW repoW0 (str "nope") (str "x") 5
      (by decide)).2.1 rfl (by decide),
   (C9_recoverable_diag_state_unchanged toyHash wtW repoW0 (str "d") (str "x") 5
      (by decide)).2.2.1 rfl (by decide),
   (C9_recoverable_diag_state_unchanged toyHash wtW repoW0 (str "d") (str "x") 5
      (by decide)).2.2.2 rfl (by decide)⟩

theorem readObject_after_commit (H : Str → Str) (hh : HashOK H) (r : Repo)
    (msg : Str) (ts : Nat) (hi : r.initialized = true) (hne : r.index ≠ [])
    (hhead : r.head = some headStd) :
    readObject (commit H r msg ts).2 (commitShaOf H r msg ts) =
      .found (str "commit") (commitPayloadOf H r msg ts) := by
  rw [commit_success_std H r msg ts hi hne hhead]
  unfold readObject commitShaOf
  dsimp only
  rw [if_neg (hash_not_short hh _), lookupKey_setKey_self]
  dsimp only
  rw [show commitFullOf H r msg ts =
      fullContent (str "commit") (commitPayloadOf H r msg ts) from rfl,
    splitAtNul_fullContent _ (by decide)]

/-- C4: starting from an initialized repository with no commits and a
non-empty index, the first commit's stored payload has no `parent` header
line, and after staging a file and committing again, the second commit's
stored payload contains the header line `parent <first commit id>`. -/
theorem C4_parent_linkage (H : Str → Str) (hh : HashOK H) (wt : WorkTree) (r0 : Repo)
    (fp content msg1 msg2 : Str) (ts1 ts2 : Nat)
    (hinit : r0.initialized = true) (hhead : r0.head = some headStd)
    (href : r0.masterRef = none) (hidx : r0.index ≠ [])
    (hwt : lookupKey wt fp = some (FsEntry.file content)) :
    (commit H r0 msg1 ts1).1 = .ok (commitShaOf H r0 msg1 ts1) ∧
    (∃ p1, readObject (commit H r0 msg1 ts1).2 (commitShaOf H r0 msg1 ts1) =
        .found (str "commit") p1 ∧
      ∀ l ∈ headerOf p1, (str "parent ").isPrefixOf l = false) ∧
    (commit H (add H wt (commit H r0 msg1 ts1).2 fp).2 msg2 ts2).1 =
      .ok (commitShaOf H (add H wt (commit H r0 msg1 ts1).2 fp).2 msg2 ts2) ∧
    ∃ p2, readObject (commit H (add H wt (commit H r0 msg1 ts1).2 fp).2 msg2 ts2).2
        (commitShaOf H (add H wt (commit H r0 msg1 ts1).2 fp).2 msg2 ts2) =
        .found (str "commit") p2 ∧
      (str "parent " ++ commitShaOf H r0 msg1 ts1) ∈ headerOf p2 := by
  have hc1 := commit_success_std H r0 msg1 ts1 hinit hidx hhead
  have hread1 := readObject_after_commit H hh r0 msg1 ts1 hinit hidx hhead
  have hpar0 : getCurrentCommit r0 = none := by
    rw [getCurrentCommit_eq r0 hhead, href]
  have hr1i : (commit H r0 msg1 ts1).2.initialized = true := by rw [hc1]; exact hinit
  have hr1h : (commit H r0 msg1 ts1).2.head = some headStd := by rw [hc1]; exact hhead
  have hr1m : (commit H r0 msg1 ts1).2.masterRef =
      some (commitShaOf H r0 msg1 ts1 ++ [nlc]) := by rw [hc1]
  have hr1x : (commit H r0 msg1 ts1).2.index = [] := by rw [hc1]
  have ha2 := add_success H wt (commit H r0 msg1 ts1).2 fp content hr1i hwt
  have hr2i : (add H wt (commit H r0 msg1 ts1).2 fp).2.initialized = true := by
    rw [ha2]; exact hr1i
  have hr2h : (add H wt (commit H r0 msg1 ts1).2 fp).2.head = some headStd := by
    rw [ha2]; exact hr1h
  have hr2m : (add H wt (commit H r0 msg1 ts1).2 fp).2.masterRef =
      some (commitShaOf H r0 msg1 ts1 ++ [nlc]) := by
    rw [ha2]; exact hr1m
  have hr2x : (add H wt (commit H r0 msg1 ts1).2 fp).2.index ≠ [] := by
    rw [ha2]
    show setKey (commit H r0 msg1 ts1).2.index fp _ ≠ []
    rw [hr1x]
    simp [setKey]
  have hgc2 : getCurrentCommit (add H wt (commit H r0 msg1 ts1).2 fp).2 =
      some (commitShaOf H r0 msg1 ts1) := by
    rw [getCurrentCommit_eq _ hr2h, hr2m]
    unfold commitShaOf
    dsimp only
    rw [trim_hash_nl hh]
  have hc2 := commit_success_std H (add H wt (commit H r0 msg1 ts1).2 fp).2 msg2 ts2
    hr2i hr2x hr2h
  have hread2 := readObject_after_commit H hh (add H wt (commit H r0 msg1 ts1).2 fp).2
    msg2 ts2 hr2i hr2x hr2h
  have hc1ne : commitShaOf H r0 msg1 ts1 ≠ [] := by
    unfold commitShaOf; exact hash_ne_nil hh _
  refine ⟨by rw [hc1], ⟨commitPayloadOf H r0 msg1 ts1, hread1, ?_⟩, by rw [hc2],
    ⟨commitPayloadOf H (add H wt (commit H r0 msg1 ts1).2 fp).2 msg2 ts2, hread2, ?_⟩⟩
  · intro l hl
    unfold commitPayloadOf at hl
    rw [hpar0, headerOf_commitPayload _ none ts1 msg1
      (by unfold treeShaOf; exact hash_no_nl hh _) (by intro p hp; cases hp)] at hl
    simp [commitHeaderLines] at hl
    rcases hl with rfl | rfl | rfl
    · rfl
    · rw [authorLine_eq]; rfl
    · rw [committerLine_eq]; rfl
  · unfold commitPayloadOf
    rw [hgc2, headerOf_commitPayload _ (some (commitShaOf H r0 msg1 ts1)) ts2 msg2
      (by unfold treeShaOf; exact hash_no_nl hh _)
      (by intro p hp; cases hp; unfold commitShaOf; exact hash_no_nl hh _)]
    simp [commitHeaderLines, hc1ne]

theorem C4_parent_linkage_witness :
    (commit toyHash repoW1 (str "first") 100).1 =
      .ok (commitShaOf toyHash repoW1 (str "first") 100) ∧
    (∃ p1, readObject (commit toyHash repoW1 (str "first") 100).2
        (commitShaOf toyHash repoW1 (str "first") 100) =
        .found (str "commit") p1 ∧
      ∀ l ∈ headerOf p1, (str "parent ").isPrefixOf l = false) ∧
    (commit toyHash
        (add toyHash wtW (commit toyHash repoW1 (str "first") 100).2 (str "a.txt")).2
        (str "second") 200).1 =
      .ok (commitShaOf toyHash
        (add toyHash wtW (commit toyHash repoW1 (str "first") 100).2 (str "a.txt")).2
        (str "second") 200) ∧
    ∃ p2, readObject (commit toyHash
        (add toyHash wtW (commit toyHash repoW1 (str "first") 100).2 (str "a.txt")).2
        (str "second") 200).2
        (commitShaOf toyHash
          (add toyHash wtW (commit toyHash repoW1 (str "first") 100).2 (str "a.txt")).2
          (str "second") 200) =
        .found (str "commit") p2 ∧
      (str "parent " ++ commitShaOf toyHash repoW1 (str "first") 100) ∈ headerOf p2 :=
  C4_parent_linkage toyHash toyHash_hashOK wtW repoW1 (str "a.txt") (str "hello")
    (str "first") (str "second") 100 200 (by decide) (by decide) (by decide)
    (by decide) (by decide)

theorem logOp_state (r : Repo) : (logOp r).2 = r := by
  unfold logOp
  split
  · rfl
  · split
    · rfl
    · split <;> rfl

theorem statusOp_state (r : Repo) : (statusOp r).2 = r := by
  unfold statusOp
  split <;> rfl

/-- C10: `log` and `status` modify no persisted state — the repository
state they return is exactly the input state. -/
theorem C10_log_status_pure (r : Repo) :
    (logOp r).2 = r ∧ (statusOp r).2 = r :=
  ⟨logOp_state r, statusOp_state r⟩

theorem mem_of_lookup_some {α : Type} :
    ∀ {l : List (Str × α)} {k : Str} {v : α}, lookupKey l k = some v → (k, v) ∈ l := by
  intro l
  induction l with
  | nil => intro k v h; simp [lookupKey] at h
  | cons e es ih =>
    obtain ⟨k', v'⟩ := e
    intro k v h
    by_cases hk : k' = k
    · subst hk
      simp [lookupKey] at h
      subst h
      simp
    · simp [lookupKey, hk] at h
      exact List.mem_cons_of_mem _ (ih h)

theorem freshOrSame_spec {H : Str → Str} {objs : List (Str × Str)} {full : Str}
    (h : freshOrSame H objs full = true) :
    ∀ e ∈ objs, e.1 = H full → e.2 = full := by
  intro e he hk
  have h2 := List.all_eq_true.mp h e he
  simp only [hk, beq_self_eq_true, Bool.not_true, Bool.false_or, beq_iff_eq] at h2
  exact h2

/-- Effect of one write-once store: the object list is unchanged (identical
rewrite) or extended by the new object file at the end. -/
theorem store_step (H : Str → Str) {objs : List (Str × Str)} {full : Str}
    (hf : freshOrSame H objs full = true) :
    setKey objs (H full) full = objs ∨
      (lookupKey objs (H full) = none ∧
        setKey objs (H full) full = objs ++ [(H full, full)]) := by
  cases hl : lookupKey objs (H full) with
  | none => exact Or.inr ⟨rfl, setKey_of_lookup_none _ hl⟩
  | some c =>
    left
    have hc : c = full :=
      freshOrSame_spec hf (H full, c) (mem_of_lookup_some hl) rfl
    subst hc
    exact setKey_of_lookup_self hl

theorem setKey_mem {α : Type} :
    ∀ {l : List (Str × α)} {k : Str} {v : α} {e : Str × α},
      e ∈ setKey l k v → e ∈ l ∨ e = (k, v) := by
  intro l
  induction l with
  | nil => intro k v e he; simp [setKey] at he; exact Or.inr he
  | cons f fs ih =>
    obtain ⟨k', v'⟩ := f
    intro k v e he
    by_cases hk : k' = k
    · simp only [setKey, if_pos hk] at he
      rcases List.mem_cons.mp he with rfl | he
      · exact Or.inr rfl
      · exact Or.inl (List.mem_cons_of_mem _ he)
    · simp only [setKey, if_neg hk] at he
      rcases List.mem_cons.mp he with rfl | he
      · exact Or.inl (List.mem_cons_self _ _)
      · rcases ih he with h | h
        · exact Or.inl (List.mem_cons_of_mem _ h)
        · exact Or.inr h

theorem mem_keys_of_lookup_isSome {α : Type} {l : List (Str × α)} {k : Str}
    (h : (lookupKey l k).isSome) : k ∈ l.map Prod.fst := by
  by_contra hc
  rw [← lookupKey_eq_none_iff] at hc
  rw [hc] at h
  cases h

theorem lookup_isSome_append {α : Type} {l : List (Str × α)} {k : Str}
    (m : List (Str × α)) (h : (lookupKey l k).isSome) :
    (lookupKey (l ++ m) k).isSome := by
  obtain ⟨v, hv⟩ := Option.isSome_iff_exists.mp h
  rw [lookupKey_append_of_some m hv]
  rfl

theorem parentKeyOf_fullContent_not_commit (kind : Str) (hk : nulc ∉ kind)
    (hne : ¬ kind = str "commit") (payload : Str) :
    parentKeyOf (fullContent kind payload) = none := by
  unfold parentKeyOf
  rw [splitAtNul_fullContent kind hk payload]
  dsimp only
  rw [if_neg hne]

theorem parentKeyOf_commitFull (H : Str → Str) (hh : HashOK H) (r : Repo)
    (msg : Str) (ts : Nat)
    (hp : ∀ p, getCurrentCommit r = some p → nlc ∉ p) :
    parentKeyOf (commitFullOf H r msg ts) = parentFieldOf (getCurrentCommit r) := by
  unfold parentKeyOf commitFullOf
  rw [splitAtNul_fullContent _ (by decide) _]
  dsimp only
  rw [if_pos rfl]
  unfold commitPayloadOf
  rw [parseCommit_commitPayload (treeShaOf H r.index) (getCurrentCommit r) ts msg
    (by unfold treeShaOf; exact hash_no_nl hh _) hp]
  dsimp only
  generalize getCurrentCommit r = par
  cases par with
  | none => rfl
  | some p =>
    by_cases hp0 : p = [] <;> simp [parentFieldOf, hp0]

/-- Appending a new object file whose parent (if it has one) is already a
stored key preserves the backwards-pointing-parents invariant. -/
theorem parentsEarlier_append {objs : List (Str × Str)} {k full : Str}
    (hpe : ParentsEarlier objs)
    (hp : ∀ p, parentKeyOf full = some p → p ∈ objs.map Prod.fst) :
    ParentsEarlier (objs ++ [(k, full)]) := by
  intro i sha c hget p hpar
  by_cases hi : i < objs.length
  · rw [List.getElem?_append, if_pos hi] at hget
    have hmem := hpe i sha c hget p hpar
    rw [List.map_append, List.take_append_of_le_length (by simpa using le_of_lt hi)]
    exact hmem
  · by_cases h2 : i = objs.length
    · subst h2
      rw [List.getElem?_concat_length] at hget
      injection hget with h
      rw [Prod.mk.injEq] at h
      obtain ⟨rfl, rfl⟩ := h
      have hmem := hp p hpar
      rw [List.map_append, List.take_left' (by simp)]
      exact hmem
    · have hge : (objs ++ [(k, full)]).length ≤ i := by simp; omega
      rw [List.getElem?_eq_none hge] at hget
      cases hget

theorem inv_empty (H : Str → Str) : Inv H emptyRepo where
  uninit_empty _ := rfl
  head_std h := by cases h
  ref_shape v hv := by cases hv
  has_nul e he := absurd he (List.not_mem_nil e)
  parents i sha c hget := by
    rw [List.getElem?_eq_none (by simp [emptyRepo])] at hget
    cases hget

theorem inv_init {H : Str → Str} {r : Repo} (hinv : Inv H r) : Inv H (initOp r).2 := by
  unfold initOp
  by_cases h : r.initialized
  · rw [if_pos h]
    exact hinv
  · rw [if_neg h]
    exact {
      uninit_empty := fun hc => Bool.noConfusion hc
      head_std := fun _ => rfl
      ref_shape := fun v hv => Option.noConfusion hv
      has_nul := fun e he => absurd he (List.not_mem_nil e)
      parents := fun i sha c hget => by
        rw [List.getElem?_eq_none (by simp)] at hget
        cases hget }

theorem inv_add {H : Str → Str} {r : Repo} (hinv : Inv H r) (wt : WorkTree) (fp : Str)
    (hs : safeStores H r.objects (addStores wt r fp) = true) :
    Inv H (add H wt r fp).2 := by
  by_cases hi : r.initialized = true
  · cases hw : lookupKey wt fp with
    | none =>
      rw [add_pathNotFound_eq H wt r fp hi hw]
      exact hinv
    | some fe =>
      cases fe with
      | dir =>
        rw [add_isDirectory_eq H wt r fp hi hw]
        exact hinv
      | file content =>
        rw [add_success H wt r fp content hi hw]
        have hb : addStores wt r fp = [fullContent (str "blob") content] := by
          unfold addStores
          rw [if_neg (by simp [hi]), hw]
        rw [hb] at hs
        have hf : freshOrSame H r.objects (fullContent (str "blob") content) = true := by
          simp only [safeStores, Bool.and_eq_true] at hs
          exact hs.1
        have hnp : ∀ p, parentKeyOf (fullContent (str "blob") content) = some p →
            p ∈ r.objects.map Prod.fst := by
          intro p hp
          rw [parentKeyOf_fullContent_not_commit _ (by decide) (by decide)] at hp
          cases hp
        refine {
          uninit_empty := fun hc => by rw [hi] at hc; cases hc
          head_std := fun _ => hinv.head_std hi
          ref_shape := ?_
          has_nul := ?_
          parents := ?_ }
        · intro v hv
          obtain ⟨s, hvs, hsome⟩ := hinv.ref_shape v hv
          refine ⟨s, hvs, ?_⟩
          show (lookupKey (setKey r.objects (H (fullContent (str "blob") content))
            (fullContent (str "blob") content)) (H s)).isSome
          rcases store_step H hf with hsame | ⟨-, happ⟩
          · rw [hsame]; exact hsome
          · rw [happ]; exact lookup_isSome_append _ hsome
        · intro e he
          rcases setKey_mem he with h | h
          · exact hinv.has_nul e h
          · rw [h]
            simp [fullContent]
        · show ParentsEarlier (setKey r.objects (H (fullContent (str "blob") content))
            (fullContent (str "blob") content))
          rcases store_step H hf with hsame | ⟨-, happ⟩
          · rw [hsame]; exact hinv.parents
          · rw [happ]; exact parentsEarlier_append hinv.parents hnp
  · have hif : r.initialized = false := by
      revert hi; cases r.initialized <;> simp
    rw [add_uninit_eq H wt r fp hif]
    exact hinv

theorem getCurrentCommit_inv {H : Str → Str} {r : Repo} (hh : HashOK H) (hinv : Inv H r)
    (hi : r.initialized = true) :
    getCurrentCommit r = none ∨
      ∃ s, getCurrentCommit r = some (H s) ∧ (lookupKey r.objects (H s)).isSome := by
  rw [getCurrentCommit_eq r (hinv.head_std hi)]
  cases hm : r.masterRef with
  | none => exact Or.inl rfl
  | some v =>
    obtain ⟨s, rfl, hsome⟩ := hinv.ref_shape v hm
    right
    exact ⟨s, by dsimp only; rw [trim_hash_nl hh], hsome⟩

theorem inv_commit {H : Str → Str} {r : Repo} (hh : HashOK H) (hinv : Inv H r)
    (msg : Str) (ts : Nat)
    (hs : safeStores H r.objects (commitStores H r msg ts) = true) :
    Inv H (commit H r msg ts).2 := by
  by_cases hi : r.initialized = true
  · by_cases he : r.index = []
    · rw [commit_empty_eq H r msg ts hi he]
      exact hinv
    · have hhead := hinv.head_std hi
      rw [commit_success_std H r msg ts hi he hhead]
      have hcs : commitStores H r msg ts =
          [treeFullOf r.index, commitFullOf H r msg ts] := by
        unfold commitStores
        rw [if_neg (by simp [hi]), if_neg he]
      rw [hcs] at hs
      simp only [safeStores, Bool.and_eq_true] at hs
      obtain ⟨hf1, hf2, -⟩ := hs
      have hnp1 : ∀ p, parentKeyOf (treeFullOf r.index) = some p →
          p ∈ r.objects.map Prod.fst := by
        intro p hp
        rw [show treeFullOf r.index =
          fullContent (str "tree") (treeContentOf r.index) from rfl,
          parentKeyOf_fullContent_not_commit _ (by decide) (by decide)] at hp
        cases hp
      have hpe1 : ParentsEarlier (setKey r.objects (H (treeFullOf r.index))
          (treeFullOf r.index)) := by
        rcases store_step H hf1 with hsame | ⟨-, happ⟩
        · rw [hsame]; exact hinv.parents
        · rw [happ]; exact parentsEarlier_append hinv.parents hnp1
      have hgc := getCurrentCommit_inv hh hinv hi
      have hpnl : ∀ p, getCurrentCommit r = some p → nlc ∉ p := by
        intro p hp
        rcases hgc with h | ⟨s, hgcs, -⟩
        · rw [h] at hp; cases hp
        · rw [hgcs] at hp
          injection hp with hp
          subst hp
          exact hash_no_nl hh s
      have hnp2 : ∀ p, parentKeyOf (commitFullOf H r msg ts) = some p →
          p ∈ (setKey r.objects (H (treeFullOf r.index))
            (treeFullOf r.index)).map Prod.fst := by
        intro p hp
        rw [parentKeyOf_commitFull H hh r msg ts hpnl] at hp
        rcases hgc with h | ⟨s, hgcs, hsome⟩
        · rw [h] at hp; cases hp
        · rw [hgcs] at hp
          unfold parentFieldOf at hp
          dsimp only at hp
          rw [if_neg (hash_ne_nil hh s)] at hp
          injection hp with hp
          subst hp
          apply mem_keys_of_lookup_isSome
          rcases store_step H hf1 with hsame | ⟨-, happ⟩
          · rw [hsame]; exact hsome
          · rw [happ]; exact lookup_isSome_append _ hsome
      have hpe2 : ParentsEarlier (setKey
          (setKey r.objects (H (treeFullOf r.index)) (treeFullOf r.index))
          (H (commitFullOf H r msg ts)) (commitFullOf H r msg ts)) := by
        rcases store_step H hf2 with hsame | ⟨-, happ⟩
        · rw [hsame]; exact hpe1
        · rw [happ]; exact parentsEarlier_append hpe1 hnp2
      refine {
        uninit_empty := fun hc => by rw [hi] at hc; cases hc
        head_std := fun _ => hhead
        ref_shape := ?_
        has_nul := ?_
        parents := ?_ }
      · intro v hv
        injection hv with hv
        refine ⟨commitFullOf H r msg ts, by rw [← hv]; rfl, ?_⟩
        show (lookupKey (setKey
          (setKey r.objects (treeShaOf H r.index) (treeFullOf r.index))
          (commitShaOf H r msg ts) (commitFullOf H r msg ts))
          (H (commitFullOf H r msg ts))).isSome
        unfold commitShaOf
        rw [lookupKey_setKey_self]
        rfl
      · intro e he
        rcases setKey_mem he with h | h
        · rcases setKey_mem h with h2 | h2
          · exact hinv.has_nul e h2
          · rw [h2]
            show nulc ∈ fullContent (str "tree") (treeContentOf r.index)
            simp [fullContent]
        · rw [h]
          show nulc ∈ fullContent (str "commit") (commitPayloadOf H r msg ts)
          simp [fullContent]
      · show ParentsEarlier (setKey
          (setKey r.objects (treeShaOf H r.index) (treeFullOf r.index))
          (commitShaOf H r msg ts) (commitFullOf H r msg ts))
        unfold treeShaOf commitShaOf
        exact hpe2
  · have hif : r.initialized = false := by
      revert hi; cases r.initialized <;> simp
    rw [commit_uninit_eq H r msg ts hif]
    exact hinv

theorem reach_inv {H : Str → Str} {r : Repo} (hh : HashOK H) (hr : Reach H r) :
    Inv H r := by
  induction hr with
  | start => exact inv_empty H
  | inited _ ih => exact inv_init ih
  | added wt fp _ hs ih => exact inv_add ih wt fp hs
  | committed msg ts _ hs ih => exact inv_commit hh ih msg ts hs
  | logged _ ih => rw [logOp_state]; exact ih
  | statused _ ih => rw [statusOp_state]; exact ih

theorem historyFuel_mono (r : Repo) :
    ∀ (f f' : Nat), f ≤ f' → ∀ (sha : Str) (es : List (Str × ParseState)),
      historyFuel r sha f = .done es → historyFuel r sha f' = .done es := by
  intro f
  induction f with
  | zero =>
    intro f' _ sha es hd
    simp [historyFuel] at hd
  | succ n ih =>
    intro f' hle sha es hd
    obtain ⟨m, rfl⟩ : ∃ m, f' = m + 1 := ⟨f' - 1, by omega⟩
    unfold historyFuel at hd ⊢
    by_cases hsha : sha = []
    · rw [if_pos hsha] at hd ⊢
      exact hd
    · rw [if_neg hsha] at hd ⊢
      revert hd
      cases hro : readObject r sha with
      | notFound => intro hd; exact hd
      | corrupt => intro hd; exact HistOut.noConfusion hd
      | found k payload =>
        intro hd
        dsimp only at hd ⊢
        by_cases hk : k = str "commit"
        · rw [if_pos hk] at hd ⊢
          revert hd
          cases hpp : (parseCommit payload).parent with
          | none => intro hd; exact hd
          | some p =>
            intro hd
            dsimp only at hd ⊢
            revert hd
            cases hrec : historyFuel r p n with
            | done es2 =>
              intro hd
              rw [ih m (by omega) p es2 hrec]
              exact hd
            | more => intro hd; exact HistOut.noConfusion hd
            | crash => intro hd; exact HistOut.noConfusion hd
        · rw [if_neg hk] at hd ⊢
          exact hd

theorem historyFuel_head (r : Repo) :
    ∀ (f : Nat) (sha : Str) (es : List (Str × ParseState)),
      historyFuel r sha f = .done es →
      es = [] ∨ ∃ cd tail, es = (sha, cd) :: tail := by
  intro f sha es h
  match f with
  | 0 => simp [historyFuel] at h
  | n + 1 =>
    unfold historyFuel at h
    by_cases hsha : sha = []
    · rw [if_pos hsha] at h
      injection h with h
      exact Or.inl h.symm
    · rw [if_neg hsha] at h
      revert h
      cases hro : readObject r sha with
      | notFound =>
        intro h
        injection h with h
        exact Or.inl h.symm
      | corrupt => intro h; exact HistOut.noConfusion h
      | found k payload =>
        intro h
        dsimp only at h
        by_cases hk : k = str "commit"
        · rw [if_pos hk] at h
          revert h
          cases hpp : (parseCommit payload).parent with
          | none =>
            intro h
            injection h with h
            exact Or.inr ⟨parseCommit payload, [], h.symm⟩
          | some p =>
            intro h
            dsimp only at h
            revert h
            cases hrec : historyFuel r p n with
            | done es2 =>
              intro h
              injection h with h
              exact Or.inr ⟨parseCommit payload, es2, h.symm⟩
            | more => intro h; exact HistOut.noConfusion h
            | crash => intro h; exact HistOut.noConfusion h
        · rw [if_neg hk] at h
          injection h with h
          exact Or.inl h.symm

theorem historyFuel_chain (r : Repo) :
    ∀ (f : Nat) (sha : Str) (es : List (Str × ParseState)),
      historyFuel r sha f = .done es →
      List.Chain' (fun a b => a.2.parent = some b.1) es := by
  intro f
  induction f with
  | zero => intro sha es h; simp [historyFuel] at h
  | succ n ih =>
    intro sha es h
    unfold historyFuel at h
    by_cases hsha : sha = []
    · rw [if_pos hsha] at h
      injection h with h
      rw [← h]
      exact List.chain'_nil
    · rw [if_neg hsha] at h
      revert h
      cases hro : readObject r sha with
      | notFound =>
        intro h
        injection h with h
        rw [← h]
        exact List.chain'_nil
      | corrupt => intro h; exact HistOut.noConfusion h
      | found k payload =>
        intro h
        dsimp only at h
        by_cases hk : k = str "commit"
        · rw [if_pos hk] at h
          revert h
          cases hpp : (parseCommit payload).parent with
          | none =>
            intro h
            injection h with h
            rw [← h]
            simp
          | some p =>
            intro h
            dsimp only at h
            revert h
            cases hrec : historyFuel r p n with
            | done es2 =>
              intro h
              injection h with h
              rw [← h]
              rw [List.chain'_cons']
              refine ⟨?_, ih p es2 hrec⟩
              intro y hy
              rcases historyFuel_head r n p es2 hrec with rfl | ⟨cd2, tail, rfl⟩
              · simp at hy
              · simp at hy
                rw [← hy]
                exact hpp
            | more => intro h; exact HistOut.noConfusion h
            | crash => intro h; exact HistOut.noConfusion h
        · rw [if_neg hk] at h
          injection h with h
          rw [← h]
          exact List.chain'_nil


theorem historyFuel_done_of_pos (r : Repo)
    (hnul : ∀ e ∈ r.objects, nulc ∈ e.2) (hpe : ParentsEarlier r.objects) :
    ∀ (i : Nat) (sha : Str), posOf r.objects sha = some i →
      ∃ es, historyFuel r sha (i + 1 + 1) = .done es := by
  intro i
  induction i using Nat.strong_induction_on with
  | _ i ih =>
    intro sha hpos
    by_cases hsha : sha = []
    · exact ⟨[], by unfold historyFuel; rw [if_pos hsha]⟩
    · obtain ⟨c, hget, hlook⟩ := posOf_spec r.objects sha i hpos
      by_cases hlen : sha.length < 3
      · refine ⟨[], ?_⟩
        unfold historyFuel
        rw [if_neg hsha,
          show readObject r sha = .notFound by unfold readObject; rw [if_pos hlen]]
      · have hnulc : nulc ∈ c := hnul (sha, c) (List.getElem?_mem hget)
        obtain ⟨kk, dd, hsplit⟩ := splitAtNul_isSome_of_mem hnulc
        have hro : readObject r sha = .found kk dd := by
          unfold readObject
          rw [if_neg hlen, hlook]
          dsimp only
          rw [hsplit]
        by_cases hk : kk = str "commit"
        · cases hpp : (parseCommit dd).parent with
          | none =>
            refine ⟨[(sha, parseCommit dd)], ?_⟩
            unfold historyFuel
            rw [if_neg hsha, hro]
            dsimp only
            rw [if_pos hk, hpp]
          | some p =>
            by_cases hp0 : p = []
            · refine ⟨[(sha, parseCommit dd)], ?_⟩
              unfold historyFuel
              rw [if_neg hsha, hro]
              dsimp only
              rw [if_pos hk, hpp]
              dsimp only
              rw [show historyFuel r p (i + 1) = .done [] by
                unfold historyFuel; rw [if_pos hp0]]
            · have hpkey : parentKeyOf c = some p := by
                unfold parentKeyOf
                rw [hsplit]
                dsimp only
                rw [if_pos hk, hpp]
                dsimp only
                rw [if_neg hp0]
              have hmem := hpe i sha c hget p hpkey
              obtain ⟨j, hjpos, hji⟩ := posOf_lt_of_mem_take r.objects p i hmem
              obtain ⟨es2, hes2⟩ := ih j hji p hjpos
              have hmono : historyFuel r p (i + 1) = .done es2 :=
                historyFuel_mono r (j + 1 + 1) (i + 1) (by omega) p es2 hes2
              refine ⟨(sha, parseCommit dd) :: es2, ?_⟩
              unfold historyFuel
              rw [if_neg hsha, hro]
              dsimp only
              rw [if_pos hk, hpp]
              dsimp only
              rw [hmono]
        · refine ⟨[], ?_⟩
          unfold historyFuel
          rw [if_neg hsha, hro]
          dsimp only
          rw [if_neg hk]

/-- C3: from every repository state reachable by the public operations
(under the design's collision-freedom assumption on the digest), the history
traversal from the current commit finishes: it neither crashes nor runs out
of the generous fuel bound, and the commits it yields are linked in strict
child-to-root order through their parent fields. -/
theorem C3_history_finite (H : Str → Str) (hh : HashOK H) (r : Repo) (hr : Reach H r) :
    ∃ es, history r = .done es ∧
      List.Chain' (fun a b => a.2.parent = some b.1) es := by
  have hinv := reach_inv hh hr
  unfold history
  by_cases hi : r.initialized = true
  · rcases getCurrentCommit_inv hh hinv hi with hgc | ⟨s, hgc, hsome⟩
    · rw [hgc]
      exact ⟨[], rfl, List.chain'_nil⟩
    · rw [hgc]
      obtain ⟨i, hpos⟩ : ∃ i, posOf r.objects (H s) = some i := by
        cases hp : posOf r.objects (H s) with
        | some i => exact ⟨i, rfl⟩
        | none =>
          rw [posOf_eq_none_iff] at hp
          rw [hp] at hsome
          cases hsome
      have hilt : i < r.objects.length := by
        obtain ⟨v, hv, -⟩ := posOf_spec r.objects (H s) i hpos
        exact (List.getElem?_eq_some.mp hv).1
      obtain ⟨es, hes⟩ := historyFuel_done_of_pos r hinv.has_nul hinv.parents i (H s) hpos
      have hmono := historyFuel_mono r (i + 1 + 1) (r.objects.length + 1)
        (by omega) _ es hes
      exact ⟨es, hmono, historyFuel_chain r _ _ _ hmono⟩
  · have hif : r.initialized = false := by
      revert hi; cases r.initialized <;> simp
    rw [hinv.uninit_empty hif]
    exact ⟨[], rfl, List.chain'_nil⟩

set_option maxRecDepth 8192 in
theorem C3_history_finite_witness :
    ∃ es, history repoW4 = .done es ∧
      List.Chain' (fun a b => a.2.parent = some b.1) es :=
  C3_history_finite toyHash toyHash_hashOK repoW4
    (Reach.committed (str "second") 200
      (Reach.added wtW (str "a.txt")
        (Reach.committed (str "first") 100
          (Reach.added wtW (str "a.txt") (Reach.inited Reach.start) (by decide))
          (by decide))
        (by decide))
      (by decide))

end MiniGitModel
